import Mathlib

/-!
# Cache simulator (`05_Cache Lab/csim.c`)

A shallow embedding of the set-associative cache simulator and a verification
of its specification.

Conventions of the embedding.

* C `int` values (counters, tags, time stamps, the valid flag, line and set
  indices) are Lean `Int`. Signed overflow is undefined in C. In `1 << s` it
  depends on the input alone and is modelled: `shl_one` returns `none` when
  `2^s` is not an `int`. In a counter or a time stamp it needs `2^31 - 1`
  increments and is not modelled: below that bound the `Int` value is the C
  value.
* `unsigned` is 32 bits wide and its values are `Nat` below `2^32`. A shift of
  an `unsigned` by a count outside `[0, 32)` is undefined in C: `shr_u32`
  returns `none` there.
* The heap object `cache->line` is a list of rows. A read or write outside
  the allocated rows is undefined in C: `readLine` and `writeLine` return
  `none` there, and every function that touches memory returns an `Option`.
* A `for (i = 0; i < cache->E; i++)` loop is a recursion on the number of
  iterations that remain, together with the current value of `i`.

The first part of the file holds the definitions: the embedding of the source,
then the vocabulary of the proofs (well-formed caches, the row-level view of
an access, the recency invariant, the reference LRU list). The second part
holds the lemmas and the theorems for the claims of the specification.
-/

namespace Csim

/-! ## Data model -/

/-- One line of a set: `struct CacehLine_`. -/
structure CacheLine where
  valid : Int
  tag : Int
  time_stamp : Int
deriving DecidableEq

/-- The cache object: `struct Cache_`. `line` is the array of `S` rows. -/
structure Cache where
  S : Int
  E : Int
  B : Int
  line : List (List CacheLine)
deriving DecidableEq

/-- The global variables of the program that the simulation mutates. -/
structure State where
  cache : Cache
  hit_count : Int
  miss_count : Int
  eviction_count : Int
deriving DecidableEq

/-! ## Memory access -/

/-- Read of `cache->line[op_s][i]`. -/
def readLine (c : Cache) (op_s i : Int) : Option CacheLine :=
  if 0 ≤ op_s ∧ 0 ≤ i then
    match c.line[op_s.toNat]? with
    | none => none
    | some row => row[i.toNat]?
  else none

/-- Write of a whole line value to `cache->line[op_s][i]`. -/
def writeLine (c : Cache) (op_s i : Int) (l : CacheLine) : Option Cache :=
  if 0 ≤ op_s ∧ 0 ≤ i then
    match c.line[op_s.toNat]? with
    | none => none
    | some row =>
      if i.toNat < row.length then
        some { c with line := c.line.set op_s.toNat (row.set i.toNat l) }
      else none
  else none

/-- Assignment to one field of `cache->line[op_s][i]`, given as the function
`f` that rewrites the field. -/
def modifyLine (c : Cache) (op_s i : Int) (f : CacheLine → CacheLine) : Option Cache :=
  match readLine c op_s i with
  | none => none
  | some l => writeLine c op_s i (f l)

/-! ## `init_cache` -/

/-- The C expression `1 << n` on `int`: undefined for a negative count, for a
count of 32 or more, and for the count 31, where `2^31` is not an `int`. -/
def shl_one (n : Int) : Option Int :=
  if 0 ≤ n ∧ n ≤ 30 then some (2 ^ n.toNat) else none

/-- The line written by the inner loop of `init_cache`. -/
def init_line : CacheLine := { valid := 0, tag := -1, time_stamp := 0 }

/-- `init_cache(s, E, b)`: the cache object it allocates and fills. The loop
bounds `i < S` and `j < E` give `S` rows of `E` lines (none when the bound is
not positive). -/
def init_cache (s E b : Int) : Option Cache :=
  match shl_one s, shl_one b with
  | some S, some B =>
    some { S := S, E := E, B := B,
           line := List.replicate S.toNat (List.replicate E.toNat init_line) }
  | _, _ => none

/-- The program state after `init_cache(s, E, b)` in `main`: the counters
still have their initial value 0. -/
def init_state (s E b : Int) : Option State :=
  (init_cache s E b).map fun c =>
    { cache := c, hit_count := 0, miss_count := 0, eviction_count := 0 }

/-! ## The per-set scans -/

/-- Loop of `get_index`: `n` iterations remain, the loop variable is `i`. -/
def get_index_loop (c : Cache) (op_s op_t : Int) : Nat → Nat → Option Int
  | 0, _ => some (-1)
  | n + 1, i =>
    match readLine c op_s i with
    | none => none
    | some l =>
      if l.valid ≠ 0 ∧ l.tag = op_t then some (i : Int)
      else get_index_loop c op_s op_t n (i + 1)

/-- `get_index(op_s, op_t)`. -/
def get_index (c : Cache) (op_s op_t : Int) : Option Int :=
  get_index_loop c op_s op_t c.E.toNat 0

/-- Loop of `get_emptyline`. -/
def get_emptyline_loop (c : Cache) (op_s : Int) : Nat → Nat → Option Int
  | 0, _ => some (-1)
  | n + 1, i =>
    match readLine c op_s i with
    | none => none
    | some l =>
      if l.valid = 0 then some (i : Int)
      else get_emptyline_loop c op_s n (i + 1)

/-- `get_emptyline(op_s)`. -/
def get_emptyline (c : Cache) (op_s : Int) : Option Int :=
  get_emptyline_loop c op_s c.E.toNat 0

/-- Loop of `find_lru`, carrying `max_index` and `max_timestamp`. -/
def find_lru_loop (c : Cache) (op_s : Int) : Nat → Nat → Int → Int → Option Int
  | 0, _, max_index, _ => some max_index
  | n + 1, i, max_index, max_timestamp =>
    match readLine c op_s i with
    | none => none
    | some l =>
      if l.time_stamp > max_timestamp then
        find_lru_loop c op_s n (i + 1) i l.time_stamp
      else
        find_lru_loop c op_s n (i + 1) max_index max_timestamp

/-- `find_lru(op_s)`. -/
def find_lru (c : Cache) (op_s : Int) : Option Int :=
  find_lru_loop c op_s c.E.toNat 0 0 0

/-! ## `update` and `update_info` -/

/-- Loop of `update`: every line whose valid flag is 1 gets its time stamp
incremented. -/
def update_loop (op_s : Int) : Nat → Nat → Cache → Option Cache
  | 0, _, c => some c
  | n + 1, i, c =>
    match readLine c op_s i with
    | none => none
    | some l =>
      if l.valid = 1 then
        match writeLine c op_s i { l with time_stamp := l.time_stamp + 1 } with
        | none => none
        | some c1 => update_loop op_s n (i + 1) c1
      else update_loop op_s n (i + 1) c

/-- `update(index, op_s, op_t)`. -/
def update (c : Cache) (index op_s op_t : Int) : Option Cache :=
  match modifyLine c op_s index (fun l => { l with valid := 1 }) with
  | none => none
  | some c1 =>
    match modifyLine c1 op_s index (fun l => { l with tag := op_t }) with
    | none => none
    | some c2 =>
      match update_loop op_s c2.E.toNat 0 c2 with
      | none => none
      | some c3 => modifyLine c3 op_s index (fun l => { l with time_stamp := 0 })

/-- `update_info(op_t, op_s)` (the diagnostic `printf`s are not modelled). -/
def update_info (st : State) (op_t op_s : Int) : Option State :=
  match get_index st.cache op_s op_t with
  | none => none
  | some index =>
    if index = -1 then
      let st1 := { st with miss_count := st.miss_count + 1 }
      match get_emptyline st1.cache op_s with
      | none => none
      | some i =>
        if i = -1 then
          let st2 := { st1 with eviction_count := st1.eviction_count + 1 }
          match find_lru st2.cache op_s with
          | none => none
          | some i2 =>
            (update st2.cache i2 op_s op_t).map fun c => { st2 with cache := c }
        else
          (update st1.cache i op_s op_t).map fun c => { st1 with cache := c }
    else
      let st1 := { st with hit_count := st.hit_count + 1 }
      (update st1.cache index op_s op_t).map fun c => { st1 with cache := c }

/-! ## `get_trace` -/

/-- The C expression `x >> n` on a 32-bit `unsigned`. -/
def shr_u32 (x : Nat) (n : Int) : Option Nat :=
  if 0 ≤ n ∧ n < 32 then some (x / 2 ^ n.toNat) else none

/-- Conversion of an `unsigned` value to `int` (two's complement). -/
def to_int (x : Nat) : Int :=
  if x < 2 ^ 31 then (x : Int) else (x : Int) - 2 ^ 32

/-- The two assignments at the head of the loop body of `get_trace`:
`op_t = addr >> (s + b)` and
`op_s = (addr >> b) & (-1U >> (8 * sizeof(unsigned) - s))`. -/
def decode (s b : Int) (addr : Nat) : Option (Int × Int) :=
  match shr_u32 addr (s + b), shr_u32 addr b, shr_u32 (2 ^ 32 - 1) (8 * 4 - s) with
  | some t, some x, some m => some (to_int t, to_int (x &&& m))
  | _, _, _ => none

/-- A line of the trace file as `fscanf` delivers it: the identifier
character, the address and the size. -/
structure Record where
  identifier : Char
  addr : Nat
  sz : Int
deriving DecidableEq

/-- One iteration of the `while` loop of `get_trace`. -/
def trace_step (s b : Int) (st : State) (r : Record) : Option State :=
  match decode s b r.addr with
  | none => none
  | some (op_t, op_s) =>
    if r.identifier = 'M' then
      match update_info st op_t op_s with
      | none => none
      | some st1 => update_info st1 op_t op_s
    else if r.identifier = 'L' then update_info st op_t op_s
    else if r.identifier = 'S' then update_info st op_t op_s
    else some st

/-- The `while` loop of `get_trace` over the records of the trace file. -/
def get_trace (s b : Int) : State → List Record → Option State
  | st, [] => some st
  | st, r :: rs =>
    match trace_step s b st r with
    | none => none
    | some st1 => get_trace s b st1 rs

/-- The part of `main` after option parsing: `init_cache` then `get_trace`. -/
def run (s E b : Int) (rs : List Record) : Option State :=
  match init_state s E b with
  | none => none
  | some st => get_trace s b st rs


/-! ## Well-formed states and the row-level view of the scans -/

/-- The cache object is well formed: `line` has `S` rows and every row has
`E` lines, as `init_cache` allocates them. -/
def Cache.WF (c : Cache) : Prop :=
  c.S = (c.line.length : Int) ∧ ∀ row ∈ c.line, (row.length : Int) = c.E

instance (c : Cache) : Decidable c.WF := by
  unfold Cache.WF; exact inferInstance

/-- The set index `op_s` is in range for the cache. -/
def Cache.InRange (c : Cache) (op_s : Int) : Prop := 0 ≤ op_s ∧ op_s < c.S

instance (c : Cache) (op_s : Int) : Decidable (c.InRange op_s) := by
  unfold Cache.InRange; exact inferInstance

/-- The row of set `op_s` (empty when `op_s` is out of range). -/
def Cache.row (c : Cache) (op_s : Int) : List CacheLine :=
  if 0 ≤ op_s then c.line.getD op_s.toNat [] else []

/-- The cache with the row of set `op_s` replaced. -/
def Cache.setRow (c : Cache) (op_s : Int) (row : List CacheLine) : Cache :=
  { c with line := c.line.set op_s.toNat row }

/-- The test of `get_index`: the line is valid and holds `op_t`. -/
def holds (op_t : Int) (l : CacheLine) : Bool := decide (l.valid ≠ 0 ∧ l.tag = op_t)

/-- The test of `get_emptyline`: the line is invalid. -/
def isEmpty (l : CacheLine) : Bool := decide (l.valid = 0)

/-- The effect of one iteration of the loop of `update` on a line. -/
def bump (l : CacheLine) : CacheLine :=
  if l.valid = 1 then { l with time_stamp := l.time_stamp + 1 } else l

/-- The effect of `update(index, _, op_t)` on the row it works on. -/
def rowUpdate (row : List CacheLine) (index : Nat) (op_t : Int) : List CacheLine :=
  (row.map bump).set index { valid := 1, tag := op_t, time_stamp := 0 }

/-- The loop of `find_lru` read off a row: `i` is the loop variable at the
head of the remaining lines. -/
def rowLru : List CacheLine → Nat → Int → Int → Int
  | [], _, max_index, _ => max_index
  | l :: ls, i, max_index, max_timestamp =>
    if l.time_stamp > max_timestamp then rowLru ls (i + 1) i l.time_stamp
    else rowLru ls (i + 1) max_index max_timestamp

/-- Result of a first-match scan over a row, as the C loops return it. -/
def rowFind (p : CacheLine → Bool) (row : List CacheLine) : Int :=
  if row.findIdx p < row.length then (row.findIdx p : Int) else -1

/-- The line index that `update_info` hands to `update`: the hit line, else
the first invalid line, else the line chosen by `find_lru`. -/
def slot (row : List CacheLine) (op_t : Int) : Nat :=
  if row.findIdx (holds op_t) < row.length then row.findIdx (holds op_t)
  else if row.findIdx isEmpty < row.length then row.findIdx isEmpty
  else (rowLru row 0 0 0).toNat

/-- The state that `update_info(op_t, op_s)` produces on a well-formed cache,
written on the row of set `op_s`. -/
def step (st : State) (op_t op_s : Int) : State :=
  let row := st.cache.row op_s
  let hit := decide (row.findIdx (holds op_t) < row.length)
  let free := decide (row.findIdx isEmpty < row.length)
  { cache := st.cache.setRow op_s (rowUpdate row (slot row op_t) op_t)
    hit_count := if hit then st.hit_count + 1 else st.hit_count
    miss_count := if hit then st.miss_count else st.miss_count + 1
    eviction_count := if hit || free then st.eviction_count else st.eviction_count + 1 }

/-- Some valid line of the row holds the tag. -/
def Resident (row : List CacheLine) (op_t : Int) : Prop :=
  ∃ l ∈ row, l.valid ≠ 0 ∧ l.tag = op_t

instance (row : List CacheLine) (op_t : Int) : Decidable (Resident row op_t) := by
  unfold Resident; exact inferInstance

/-- The row has an invalid line. -/
def HasInvalid (row : List CacheLine) : Prop := ∃ l ∈ row, l.valid = 0

instance (row : List CacheLine) : Decidable (HasInvalid row) := by
  unfold HasInvalid; exact inferInstance

/-- A small well-formed cache state used to instantiate the theorems: two
sets of two lines, set 0 holding tag 5 in its first line. -/
def sampleState : State :=
  { cache := { S := 2, E := 2, B := 2,
               line := [[{ valid := 1, tag := 5, time_stamp := 0 }, init_line],
                        [init_line, init_line]] }
    hit_count := 0, miss_count := 1, eviction_count := 0 }

/-- Line `i` of a row (`init_line` beyond the end of the row). -/
def lineAt (row : List CacheLine) (i : Nat) : CacheLine := row.getD i init_line

/-- The effect of `update_info(op_t, _)` on the row of the target set. -/
def rowStep (row : List CacheLine) (op_t : Int) : List CacheLine :=
  rowUpdate row (slot row op_t) op_t

/-- Number of calls of `update_info` that the `switch` of `get_trace` makes for
a record. -/
def accesses (r : Record) : Int :=
  if r.identifier = 'M' then 2
  else if r.identifier = 'L' then 1
  else if r.identifier = 'S' then 1
  else 0

/-- Tag of line `i` of a row. -/
def tagAt (row : List CacheLine) (i : Nat) : Int := (lineAt row i).tag

/-- Age (`time_stamp`) of line `i` of a row. -/
def ageAt (row : List CacheLine) (i : Nat) : Int := (lineAt row i).time_stamp

/-- The row is in the shape that accesses to an initially empty set produce,
and `idx` lists the indices of its valid lines from youngest to oldest:
the valid lines are the first `idx.length` lines and have flag 1, the other
lines still are `init_line`, the valid lines hold pairwise different tags, and
their ages are non-negative and strictly increasing along `idx`. -/
structure Recency (row : List CacheLine) (idx : List Nat) : Prop where
  nodup : idx.Nodup
  mem : ∀ i, i ∈ idx ↔ i < idx.length
  le : idx.length ≤ row.length
  valid : ∀ i, i < idx.length → (lineAt row i).valid = 1
  fresh : ∀ i, idx.length ≤ i → lineAt row i = init_line
  tags : (idx.map (tagAt row)).Nodup
  ages : (idx.map (ageAt row)).Pairwise (· < ·)
  nonneg : ∀ i ∈ idx, 0 ≤ ageAt row i

/-! ## Observing accesses, and the reference LRU list -/

/-- The three outcomes of an access. -/
inductive Outcome where
  | Hit
  | MissNoEviction
  | MissWithEviction
deriving DecidableEq

/-- The outcome of a call of `update_info`, read off the three counters before
and after the call. -/
def outcome (st st' : State) : Option Outcome :=
  if st'.hit_count = st.hit_count + 1 ∧ st'.miss_count = st.miss_count ∧
      st'.eviction_count = st.eviction_count then some Outcome.Hit
  else if st'.hit_count = st.hit_count ∧ st'.miss_count = st.miss_count + 1 ∧
      st'.eviction_count = st.eviction_count then some Outcome.MissNoEviction
  else if st'.hit_count = st.hit_count ∧ st'.miss_count = st.miss_count + 1 ∧
      st'.eviction_count = st.eviction_count + 1 then some Outcome.MissWithEviction
  else none

/-- The tags held by the valid lines of a row, in line order. -/
def residents (row : List CacheLine) : List Int :=
  (row.filter fun l => decide (l.valid ≠ 0)).map fun l => l.tag

/-- The tag that a call evicted: a tag held by a valid line of the row before
the call and by no valid line after it (`none` when every tag stays). -/
def evicted (row row' : List CacheLine) : Option Int :=
  (residents row).find? fun t => decide (t ∉ residents row')

/-- The observations of a sequence of calls `update_info(t, op_s)` for the tags
`t` of a list, all to the same set: the outcome and the evicted tag of each
call. -/
def access_trace (op_s : Int) : State → List Int → Option (List (Option Outcome × Option Int))
  | _, [] => some []
  | st, t :: ts =>
    match update_info st t op_s with
    | none => none
    | some st' =>
      match access_trace op_s st' ts with
      | none => none
      | some es =>
        some ((outcome st st', evicted (st.cache.row op_s) (st'.cache.row op_s)) :: es)

/-- Reference model, following the specification's words: the set is a list of
at most `E` tags, most recently used first. A hit moves the tag to the front;
a miss pushes the tag on the front, after dropping the back element when the
list is full. The result is the new list, the outcome and the evicted tag. -/
def ref_access (E : Nat) (lst : List Int) (t : Int) : List Int × Outcome × Option Int :=
  if t ∈ lst then (t :: lst.erase t, Outcome.Hit, none)
  else if lst.length < E then (t :: lst, Outcome.MissNoEviction, none)
  else (t :: lst.dropLast, Outcome.MissWithEviction, lst.getLast?)

/-- The observations of the reference model over a sequence of tags. -/
def ref_trace (E : Nat) : List Int → List Int → List (Outcome × Option Int)
  | _, [] => []
  | lst, t :: ts => (ref_access E lst t).2 :: ref_trace E (ref_access E lst t).1 ts

/-- The outcome of `update_info(op_t, _)` as decided by the scans of the row. -/
def rowOutcome (row : List CacheLine) (op_t : Int) : Outcome :=
  if Resident row op_t then Outcome.Hit
  else if HasInvalid row then Outcome.MissNoEviction
  else Outcome.MissWithEviction

/-- The states that the program can be in after `init_cache(s, E, b)` and any
number of calls of `update_info` with an in-range set index. -/
inductive Reachable (s E b : Int) : State → Prop where
  | init {st : State} : init_state s E b = some st → Reachable s E b st
  | access {st st' : State} (op_t op_s : Int) :
      Reachable s E b st → st.cache.InRange op_s → update_info st op_t op_s = some st' →
      Reachable s E b st'

/-- The state after `init_cache(1, 2, 1)`: two empty sets of two lines. -/
def sampleInit : State :=
  { cache := { S := 2, E := 2, B := 2,
               line := [[init_line, init_line], [init_line, init_line]] }
    hit_count := 0, miss_count := 0, eviction_count := 0 }

/-- Every set of the cache is in recency shape. -/
def CacheInv (c : Cache) : Prop :=
  c.WF ∧ 1 ≤ c.E ∧ ∀ z, c.InRange z → ∃ idx, Recency (c.row z) idx

/-- The state after `init_cache(1, 2, 1)` and the accesses of tags 5 and 6 in
set 0. -/
def sampleTwo : State :=
  { cache := { S := 2, E := 2, B := 2,
               line := [[{ valid := 1, tag := 5, time_stamp := 1 },
                         { valid := 1, tag := 6, time_stamp := 0 }],
                        [init_line, init_line]] }
    hit_count := 0, miss_count := 2, eviction_count := 0 }

end Csim

namespace Csim

/-! ## Memory lemmas -/

theorem row_of_inRange {c : Cache} {z : Int} (hwf : c.WF) (hz : c.InRange z) :
    c.line[z.toNat]? = some (c.row z) ∧ ((c.row z).length : Int) = c.E := by
  obtain ⟨hS, hE⟩ := hwf
  obtain ⟨h0, h1⟩ := hz
  have hlt : z.toNat < c.line.length := by omega
  have hget : c.line[z.toNat]? = some (c.line[z.toNat]) := List.getElem?_eq_getElem hlt
  have hrow : c.row z = c.line[z.toNat] := by
    simp [Cache.row, h0, List.getD, hget]
  refine ⟨by rw [hrow]; exact hget, ?_⟩
  rw [hrow]
  exact hE _ (List.getElem_mem hlt)

theorem readLine_eq {c : Cache} {z : Int} {row : List CacheLine} (h0 : 0 ≤ z)
    (hrow : c.line[z.toNat]? = some row) (i : Nat) :
    readLine c z (i : Int) = row[i]? := by
  simp [readLine, h0, hrow]

theorem writeLine_eq {c : Cache} {z : Int} {row : List CacheLine} (h0 : 0 ≤ z)
    (hrow : c.line[z.toNat]? = some row) {i : Nat} (hi : i < row.length) (l : CacheLine) :
    writeLine c z (i : Int) l = some (c.setRow z (row.set i l)) := by
  simp [writeLine, h0, hrow, hi, Cache.setRow]

theorem setRow_line {c : Cache} {z : Int} {row : List CacheLine} (r : List CacheLine)
    (hrow : c.line[z.toNat]? = some row) :
    (c.setRow z r).line[z.toNat]? = some r := by
  have hlt : z.toNat < c.line.length := by
    by_contra h
    rw [List.getElem?_eq_none (by omega)] at hrow
    cases hrow
  simp [Cache.setRow, List.getElem?_set_self, hlt]

theorem setRow_setRow (c : Cache) (z : Int) (r1 r2 : List CacheLine) :
    (c.setRow z r1).setRow z r2 = c.setRow z r2 := by
  simp [Cache.setRow, List.set_set]

theorem setRow_E (c : Cache) (z : Int) (r : List CacheLine) : (c.setRow z r).E = c.E := rfl

theorem setRow_S (c : Cache) (z : Int) (r : List CacheLine) : (c.setRow z r).S = c.S := rfl

/-! ## The scans on a well-formed row -/

theorem get_index_loop_eq {c : Cache} {z : Int} {row : List CacheLine} (t : Int) (h0 : 0 ≤ z)
    (hrow : c.line[z.toNat]? = some row) :
    ∀ n i, i + n = row.length →
      get_index_loop c z t n i =
        some (if (row.drop i).findIdx (holds t) < n
              then ((i + (row.drop i).findIdx (holds t) : Nat) : Int) else -1) := by
  intro n
  induction n with
  | zero => intro i _; simp [get_index_loop]
  | succ n ih =>
    intro i hi
    have hlt : i < row.length := by omega
    rw [get_index_loop, readLine_eq h0 hrow, List.getElem?_eq_getElem hlt]
    rw [List.drop_eq_getElem_cons hlt, List.findIdx_cons]
    by_cases hp : holds t row[i] = true
    · have hp2 : row[i].valid ≠ 0 ∧ row[i].tag = t := by simpa [holds] using hp
      simp [hp, hp2]
    · have hp2 : ¬ (row[i].valid ≠ 0 ∧ row[i].tag = t) := by simpa [holds] using hp
      simp only [hp2, if_false]
      rw [ih (i + 1) (by omega)]
      simp only [Bool.not_eq_true] at hp
      simp only [hp, cond_false, Nat.add_lt_add_iff_right]
      congr 1
      split <;> simp
      omega

theorem get_emptyline_loop_eq {c : Cache} {z : Int} {row : List CacheLine} (h0 : 0 ≤ z)
    (hrow : c.line[z.toNat]? = some row) :
    ∀ n i, i + n = row.length →
      get_emptyline_loop c z n i =
        some (if (row.drop i).findIdx isEmpty < n
              then ((i + (row.drop i).findIdx isEmpty : Nat) : Int) else -1) := by
  intro n
  induction n with
  | zero => intro i _; simp [get_emptyline_loop]
  | succ n ih =>
    intro i hi
    have hlt : i < row.length := by omega
    rw [get_emptyline_loop, readLine_eq h0 hrow, List.getElem?_eq_getElem hlt]
    rw [List.drop_eq_getElem_cons hlt, List.findIdx_cons]
    by_cases hp : isEmpty row[i] = true
    · have hp2 : row[i].valid = 0 := by simpa [isEmpty] using hp
      simp [hp, hp2]
    · have hp2 : ¬ (row[i].valid = 0) := by simpa [isEmpty] using hp
      simp only [hp2, if_false]
      rw [ih (i + 1) (by omega)]
      simp only [Bool.not_eq_true] at hp
      simp only [hp, cond_false, Nat.add_lt_add_iff_right]
      congr 1
      split <;> simp
      omega

theorem find_lru_loop_eq {c : Cache} {z : Int} {row : List CacheLine} (h0 : 0 ≤ z)
    (hrow : c.line[z.toNat]? = some row) :
    ∀ n i (mi mt : Int), i + n = row.length →
      find_lru_loop c z n i mi mt = some (rowLru (row.drop i) i mi mt) := by
  intro n
  induction n with
  | zero =>
    intro i mi mt hi
    have : row.drop i = [] := List.drop_of_length_le (by omega)
    simp [find_lru_loop, this, rowLru]
  | succ n ih =>
    intro i mi mt hi
    have hlt : i < row.length := by omega
    rw [find_lru_loop, readLine_eq h0 hrow, List.getElem?_eq_getElem hlt]
    rw [List.drop_eq_getElem_cons hlt, rowLru]
    simp only
    split
    · rw [ih (i + 1) _ _ (by omega)]
    · rw [ih (i + 1) _ _ (by omega)]

/-! ## `update` on a well-formed row -/

theorem bump_split (row : List CacheLine) :
    ∀ i (hlt : i < row.length),
      (row.set i (bump row[i])).take (i + 1) ++ ((row.set i (bump row[i])).drop (i + 1)).map bump
        = row.take i ++ (row.drop i).map bump := by
  induction row with
  | nil => intro i hlt; simp at hlt
  | cons a as ih =>
    intro i hlt
    cases i with
    | zero => simp
    | succ k =>
      have hk : k < as.length := by simpa using hlt
      simpa using ih k hk

theorem set_getElem_same (row : List CacheLine) :
    ∀ i (hlt : i < row.length), row.set i row[i] = row := by
  induction row with
  | nil => intro i hlt; simp at hlt
  | cons a as ih =>
    intro i hlt
    cases i with
    | zero => simp
    | succ k => simpa using ih k (by simpa using hlt)

theorem update_loop_eq {z : Int} (h0 : 0 ≤ z) :
    ∀ n i (row : List CacheLine) (c : Cache), c.line[z.toNat]? = some row → i + n = row.length →
      update_loop z n i c = some (c.setRow z (row.take i ++ (row.drop i).map bump)) := by
  intro n
  induction n with
  | zero =>
    intro i row c hrow hi
    have h1 : row.drop i = [] := List.drop_of_length_le (by omega)
    have h2 : row.take i = row := List.take_of_length_le (by omega)
    have h3 : c.line.set z.toNat row = c.line := by
      apply List.ext_getElem?
      intro j
      by_cases hj : z.toNat = j
      · subst hj
        by_cases hl : z.toNat < c.line.length
        · rw [List.getElem?_set_self hl, hrow]
        · rw [List.getElem?_eq_none (by simpa using hl)] at hrow
          cases hrow
      · rw [List.getElem?_set_ne hj]
    simp [update_loop, h1, h2, Cache.setRow, h3]
  | succ n ih =>
    intro i row c hrow hi
    have hlt : i < row.length := by omega
    rw [update_loop, readLine_eq h0 hrow, List.getElem?_eq_getElem hlt]
    simp only
    by_cases hv : row[i].valid = 1
    · have hb : ({ row[i] with time_stamp := row[i].time_stamp + 1 } : CacheLine) = bump row[i] := by
        simp [bump, hv]
      rw [if_pos hv, writeLine_eq h0 hrow hlt, hb]
      simp only
      rw [ih (i + 1) (row.set i (bump row[i])) _ (setRow_line _ hrow) (by simp; omega),
        setRow_setRow, bump_split row i hlt]
    · have hb : bump row[i] = row[i] := by simp [bump, hv]
      simp only [hv, if_false]
      rw [ih (i + 1) row c hrow (by omega)]
      have := bump_split row i hlt
      rw [hb, set_getElem_same row i hlt] at this
      rw [this]

theorem modifyLine_eq {c : Cache} {z : Int} {row : List CacheLine} (h0 : 0 ≤ z)
    (hrow : c.line[z.toNat]? = some row) {k : Nat} (hk : k < row.length)
    (f : CacheLine → CacheLine) :
    modifyLine c z (k : Int) f = some (c.setRow z (row.set k (f row[k]))) := by
  rw [modifyLine, readLine_eq h0 hrow, List.getElem?_eq_getElem hk]
  exact writeLine_eq h0 hrow hk _

theorem update_eq {c : Cache} {z : Int} {row : List CacheLine} (h0 : 0 ≤ z)
    (hrow : c.line[z.toNat]? = some row) (hE : row.length = c.E.toNat)
    {k : Nat} (hk : k < row.length) (t : Int) :
    update c (k : Int) z t = some (c.setRow z (rowUpdate row k t)) := by
  have hk1 : k < (row.set k { row[k] with valid := 1 }).length := by simpa using hk
  rw [update, modifyLine_eq h0 hrow hk]
  simp only
  rw [modifyLine_eq h0 (setRow_line _ hrow) hk1, setRow_setRow]
  simp only [List.getElem_set_self, List.set_set, setRow_E]
  rw [update_loop_eq h0 c.E.toNat 0 _ _ (setRow_line _ hrow) (by simp [hE]), setRow_setRow]
  simp only [List.take_zero, List.drop_zero, List.nil_append]
  rw [modifyLine_eq h0 (setRow_line _ hrow) (by simpa using hk), setRow_setRow]
  congr 1
  simp [rowUpdate, List.map_set, List.set_set, bump]

/-! ## `update_info` on a well-formed cache -/

theorem rowLru_range : ∀ (ls : List CacheLine) (i : Nat) (mi mt : Int),
    rowLru ls i mi mt = mi ∨ ((i : Int) ≤ rowLru ls i mi mt ∧ rowLru ls i mi mt < i + ls.length) := by
  intro ls
  induction ls with
  | nil => intro i mi mt; left; rfl
  | cons a as ih =>
    intro i mi mt
    rw [rowLru]
    split
    · rcases ih (i + 1) i a.time_stamp with h | ⟨h1, h2⟩
      · right; rw [h]; simp
      · right; simp at h1 h2 ⊢; omega
    · rcases ih (i + 1) mi mt with h | ⟨h1, h2⟩
      · left; exact h
      · right; simp at h1 h2 ⊢; omega

theorem rowLru_lt {row : List CacheLine} (h : 1 ≤ row.length) :
    0 ≤ rowLru row 0 0 0 ∧ (rowLru row 0 0 0).toNat < row.length := by
  rcases rowLru_range row 0 0 0 with h1 | ⟨h1, h2⟩
  · rw [h1]; simp; omega
  · simp at h1 h2; omega

theorem slot_lt {row : List CacheLine} (h : 1 ≤ row.length) (t : Int) :
    slot row t < row.length := by
  unfold slot
  split
  · assumption
  · split
    · assumption
    · exact (rowLru_lt h).2

theorem get_index_eq {c : Cache} {z : Int} (hwf : c.WF) (hz : c.InRange z) (t : Int) :
    get_index c z t = some (rowFind (holds t) (c.row z)) := by
  obtain ⟨hrow, hE⟩ := row_of_inRange hwf hz
  rw [get_index, get_index_loop_eq t hz.1 hrow c.E.toNat 0 (by omega)]
  have : c.E.toNat = (c.row z).length := by omega
  simp [rowFind, this]

theorem get_emptyline_eq {c : Cache} {z : Int} (hwf : c.WF) (hz : c.InRange z) :
    get_emptyline c z = some (rowFind isEmpty (c.row z)) := by
  obtain ⟨hrow, hE⟩ := row_of_inRange hwf hz
  rw [get_emptyline, get_emptyline_loop_eq hz.1 hrow c.E.toNat 0 (by omega)]
  have : c.E.toNat = (c.row z).length := by omega
  simp [rowFind, this]

theorem find_lru_eq {c : Cache} {z : Int} (hwf : c.WF) (hz : c.InRange z) :
    find_lru c z = some (rowLru (c.row z) 0 0 0) := by
  obtain ⟨hrow, hE⟩ := row_of_inRange hwf hz
  rw [find_lru, find_lru_loop_eq hz.1 hrow c.E.toNat 0 0 0 (by omega)]
  simp

theorem update_info_eq {st : State} {z : Int} (hwf : st.cache.WF) (hz : st.cache.InRange z)
    (hE : 1 ≤ st.cache.E) (t : Int) :
    update_info st t z = some (step st t z) := by
  obtain ⟨hrow, hlen⟩ := row_of_inRange hwf hz
  have hlen2 : (st.cache.row z).length = st.cache.E.toNat := by omega
  have hpos : 1 ≤ (st.cache.row z).length := by omega
  rw [update_info, get_index_eq hwf hz]
  simp only
  by_cases hh : (st.cache.row z).findIdx (holds t) < (st.cache.row z).length
  · have hne : (rowFind (holds t) (st.cache.row z)) ≠ -1 := by
      simp only [rowFind, hh, if_true]; omega
    rw [if_neg hne]
    have hr : rowFind (holds t) (st.cache.row z) = ((slot (st.cache.row z) t : Nat) : Int) := by
      simp [rowFind, slot, hh]
    rw [hr, update_eq hz.1 hrow hlen2 (slot_lt hpos t)]
    simp [step, hh]
  · have he : rowFind (holds t) (st.cache.row z) = -1 := by simp [rowFind, hh]
    rw [if_pos he, get_emptyline_eq hwf hz]
    simp only
    by_cases hf : (st.cache.row z).findIdx isEmpty < (st.cache.row z).length
    · have hne : (rowFind isEmpty (st.cache.row z)) ≠ -1 := by
        simp only [rowFind, hf, if_true]; omega
      rw [if_neg hne]
      have hr : rowFind isEmpty (st.cache.row z) = ((slot (st.cache.row z) t : Nat) : Int) := by
        simp [rowFind, slot, hh, hf]
      rw [hr, update_eq hz.1 hrow hlen2 (slot_lt hpos t)]
      simp [step, hh, hf]
    · have he2 : rowFind isEmpty (st.cache.row z) = -1 := by simp [rowFind, hf]
      rw [if_pos he2, find_lru_eq hwf hz]
      simp only
      have hr : rowLru (st.cache.row z) 0 0 0 = ((slot (st.cache.row z) t : Nat) : Int) := by
        simp only [slot, hh, hf, if_false]
        exact (Int.toNat_of_nonneg (rowLru_lt hpos).1).symm
      rw [hr, update_eq hz.1 hrow hlen2 (slot_lt hpos t)]
      simp [step, hh, hf]

/-! ## Rows before and after an access -/

theorem lineAt_of_lt {row : List CacheLine} {i : Nat} (h : i < row.length) :
    lineAt row i = row[i] := by
  simp [lineAt, List.getD, List.getElem?_eq_getElem h]

theorem lineAt_of_le {row : List CacheLine} {i : Nat} (h : row.length ≤ i) :
    lineAt row i = init_line := by
  simp [lineAt, List.getD, List.getElem?_eq_none h]

theorem lineAt_mem {row : List CacheLine} {i : Nat} (h : i < row.length) :
    lineAt row i ∈ row := by
  rw [lineAt_of_lt h]; exact List.getElem_mem h

theorem exists_lineAt_of_mem {row : List CacheLine} {l : CacheLine} (h : l ∈ row) :
    ∃ i, i < row.length ∧ lineAt row i = l := by
  obtain ⟨i, hi, rfl⟩ := List.mem_iff_getElem.mp h
  exact ⟨i, hi, lineAt_of_lt hi⟩

theorem bump_init_line : bump init_line = init_line := by decide

theorem bump_valid (l : CacheLine) : (bump l).valid = l.valid := by
  unfold bump; split <;> rfl

theorem bump_tag (l : CacheLine) : (bump l).tag = l.tag := by
  unfold bump; split <;> rfl

theorem rowUpdate_length (row : List CacheLine) (k : Nat) (t : Int) :
    (rowUpdate row k t).length = row.length := by
  simp [rowUpdate]

theorem lineAt_rowUpdate {row : List CacheLine} {k : Nat} (hk : k < row.length) (t : Int)
    (i : Nat) :
    lineAt (rowUpdate row k t) i =
      if i = k then { valid := 1, tag := t, time_stamp := 0 } else bump (lineAt row i) := by
  by_cases hi : i < row.length
  · have hi2 : i < (rowUpdate row k t).length := by rw [rowUpdate_length]; exact hi
    rw [lineAt_of_lt hi2, lineAt_of_lt hi]
    by_cases hik : i = k
    · subst hik; simp [rowUpdate]
    · have hki : k ≠ i := fun h => hik h.symm
      simp [rowUpdate, hik, List.getElem_set_ne hki]
  · have hik : i ≠ k := by omega
    rw [lineAt_of_le (by rw [rowUpdate_length]; omega), lineAt_of_le (by omega), if_neg hik,
      bump_init_line]

theorem rowStep_length (row : List CacheLine) (t : Int) :
    (rowStep row t).length = row.length := rowUpdate_length _ _ _

theorem setRow_WF {c : Cache} (hwf : c.WF) (z : Int) {r : List CacheLine}
    (hr : (r.length : Int) = c.E) : (c.setRow z r).WF := by
  obtain ⟨hS, hE⟩ := hwf
  refine ⟨by simp [Cache.setRow, hS], ?_⟩
  intro row hrow
  rcases List.mem_or_eq_of_mem_set hrow with h | h
  · exact hE row h
  · rw [h]; exact hr

theorem setRow_row_same {c : Cache} {z : Int} (hwf : c.WF) (hz : c.InRange z)
    (r : List CacheLine) : (c.setRow z r).row z = r := by
  have hlt : z.toNat < c.line.length := by
    have := hwf.1; have := hz.1; have := hz.2; omega
  simp [Cache.row, Cache.setRow, hz.1, List.getD, List.getElem?_set_self hlt]

theorem setRow_row_other (c : Cache) {z z2 : Int} (h0 : 0 ≤ z) (h2 : 0 ≤ z2) (hne : z2 ≠ z)
    (r : List CacheLine) : (c.setRow z r).row z2 = c.row z2 := by
  have hn : z.toNat ≠ z2.toNat := by omega
  simp [Cache.row, Cache.setRow, h2, List.getD, List.getElem?_set_ne hn]

theorem step_cache (st : State) (t z : Int) :
    (step st t z).cache = st.cache.setRow z (rowStep (st.cache.row z) t) := rfl

theorem step_E (st : State) (t z : Int) : (step st t z).cache.E = st.cache.E := rfl

theorem step_S (st : State) (t z : Int) : (step st t z).cache.S = st.cache.S := rfl

theorem step_WF {st : State} {z : Int} (hwf : st.cache.WF) (hz : st.cache.InRange z) (t : Int) :
    (step st t z).cache.WF := by
  rw [step_cache]
  apply setRow_WF hwf
  rw [rowStep_length]
  exact (row_of_inRange hwf hz).2

theorem step_InRange {st : State} (t z : Int) {z2 : Int} (h : st.cache.InRange z2) :
    (step st t z).cache.InRange z2 := h

theorem step_row_same {st : State} {z : Int} (hwf : st.cache.WF) (hz : st.cache.InRange z)
    (t : Int) : (step st t z).cache.row z = rowStep (st.cache.row z) t := by
  rw [step_cache, setRow_row_same hwf hz]

theorem step_row_other {st : State} {z z2 : Int} (hz : st.cache.InRange z)
    (hz2 : st.cache.InRange z2) (hne : z2 ≠ z) (t : Int) :
    (step st t z).cache.row z2 = st.cache.row z2 := by
  rw [step_cache, setRow_row_other _ hz.1 hz2.1 hne]

theorem row_length {c : Cache} {z : Int} (hwf : c.WF) (hz : c.InRange z) (hE : 1 ≤ c.E) :
    1 ≤ (c.row z).length := by
  have := (row_of_inRange hwf hz).2
  omega

theorem init_cache_eq {s E b : Int} {c : Cache} (h : init_cache s E b = some c) :
    0 ≤ s ∧ s ≤ 30 ∧ 0 ≤ b ∧ b ≤ 30 ∧
    c = { S := 2 ^ s.toNat, E := E, B := 2 ^ b.toNat,
          line := List.replicate ((2 : Int) ^ s.toNat).toNat (List.replicate E.toNat init_line) } := by
  unfold init_cache shl_one at h
  by_cases hs : 0 ≤ s ∧ s ≤ 30 <;> by_cases hb : 0 ≤ b ∧ b ≤ 30 <;> simp [hs, hb] at h
  exact ⟨hs.1, hs.2, hb.1, hb.2, h.symm⟩

theorem init_cache_of_le {s b : Int} (E : Int) (hs : 0 ≤ s) (hs30 : s ≤ 30) (hb : 0 ≤ b)
    (hb30 : b ≤ 30) :
    init_cache s E b =
      some { S := 2 ^ s.toNat, E := E, B := 2 ^ b.toNat,
             line := List.replicate ((2 : Int) ^ s.toNat).toNat
               (List.replicate E.toNat init_line) } := by
  simp [init_cache, shl_one, hs, hs30, hb, hb30]

theorem init_cache_WF {s E b : Int} {c : Cache} (h : init_cache s E b = some c) (hE : 0 ≤ E) :
    c.WF ∧ c.E = E ∧ c.S = 2 ^ s.toNat ∧ 0 ≤ s := by
  obtain ⟨hs, _, _, _, hc⟩ := init_cache_eq h
  subst hc
  refine ⟨⟨?_, ?_⟩, rfl, rfl, hs⟩
  · simp
  · intro row hrow
    rw [List.eq_of_mem_replicate hrow]
    simp
    exact hE

/-! ## Address decoding -/

theorem mask_eq (k : Nat) (h1 : 1 ≤ k) (h2 : k ≤ 32) :
    (2 ^ 32 - 1) / 2 ^ (32 - k) = 2 ^ k - 1 := by
  interval_cases k <;> norm_num

theorem to_int_of_lt {x : Nat} (h : x < 2 ^ 31) : to_int x = (x : Int) := by
  unfold to_int
  rw [if_pos h]

/-- Where the shifts of `get_trace` are defined (`1 ≤ s` and `s + b ≤ 31`),
the decoding is the one of the specification:
`tag = addr / 2^(s+b)` and `setIndex = (addr / 2^b) mod 2^s`. -/
theorem decode_eq (s b : Int) (addr : Nat) (hs : 1 ≤ s) (hb : 0 ≤ b) (hsb : s + b ≤ 31)
    (ha : addr < 2 ^ 32) :
    decode s b addr =
      some (((addr / 2 ^ (s + b).toNat : Nat) : Int),
            ((addr / 2 ^ b.toNat % 2 ^ s.toNat : Nat) : Int)) := by
  have h1 : 0 ≤ s + b ∧ s + b < 32 := by omega
  have h2 : 0 ≤ b ∧ b < 32 := by omega
  have h3 : 0 ≤ 8 * 4 - s ∧ 8 * 4 - s < 32 := by omega
  have hk : (8 * 4 - s).toNat = 32 - s.toNat := by omega
  have hm := mask_eq s.toNat (by omega) (by omega)
  have hpos : 1 ≤ (s + b).toNat := by omega
  have ht : addr / 2 ^ (s + b).toNat < 2 ^ 31 := by
    have : 2 ^ 1 ≤ 2 ^ (s + b).toNat := Nat.pow_le_pow_right (by norm_num) hpos
    have h4 : addr / 2 ^ (s + b).toNat ≤ addr / 2 ^ 1 := Nat.div_le_div_left this (by norm_num)
    omega
  have hset : addr / 2 ^ b.toNat % 2 ^ s.toNat < 2 ^ 31 := by
    have h5 : addr / 2 ^ b.toNat % 2 ^ s.toNat < 2 ^ s.toNat := Nat.mod_lt _ (by positivity)
    have h6 : 2 ^ s.toNat ≤ 2 ^ 31 := Nat.pow_le_pow_right (by norm_num) (by omega)
    omega
  simp only [decode, shr_u32, h1, h2, h3, and_self, if_true, hk, hm,
    Nat.and_pow_two_sub_one_eq_mod, to_int_of_lt ht, to_int_of_lt hset]

/-- C3 (failing case): with `s = 0` the mask of `get_trace` is `-1U >> 32`, a
shift by the full width of `unsigned`, so the decoding of address `0x10` with
`b = 4` has no defined result, where the specification gives tag 1 and
set index 0. -/
theorem decode_s_zero : decode 0 4 0x10 = none := by decide

/-- With `s + b = 32` the tag is `addr >> 32`, again a shift by the full
width, so the decoding has no defined result. -/
theorem decode_full_width : decode 16 16 0x10 = none := by decide

/-! ## Classification of one access -/

theorem findIdx_holds_lt {row : List CacheLine} {t : Int} :
    row.findIdx (holds t) < row.length ↔ Resident row t := by
  simp [List.findIdx_lt_length, Resident, holds]

theorem findIdx_isEmpty_lt {row : List CacheLine} :
    row.findIdx isEmpty < row.length ↔ HasInvalid row := by
  simp [List.findIdx_lt_length, HasInvalid, isEmpty]

theorem step_hit {st : State} {t z : Int} (h : Resident (st.cache.row z) t) :
    (step st t z).hit_count = st.hit_count + 1 ∧
    (step st t z).miss_count = st.miss_count ∧
    (step st t z).eviction_count = st.eviction_count := by
  have := findIdx_holds_lt.mpr h
  simp [step, this]

theorem step_miss_free {st : State} {t z : Int} (h : ¬ Resident (st.cache.row z) t)
    (hf : HasInvalid (st.cache.row z)) :
    (step st t z).hit_count = st.hit_count ∧
    (step st t z).miss_count = st.miss_count + 1 ∧
    (step st t z).eviction_count = st.eviction_count := by
  have h1 := mt findIdx_holds_lt.mp h
  have h2 := findIdx_isEmpty_lt.mpr hf
  simp [step, h1, h2]

theorem step_miss_evict {st : State} {t z : Int} (h : ¬ Resident (st.cache.row z) t)
    (hf : ¬ HasInvalid (st.cache.row z)) :
    (step st t z).hit_count = st.hit_count ∧
    (step st t z).miss_count = st.miss_count + 1 ∧
    (step st t z).eviction_count = st.eviction_count + 1 := by
  have h1 := mt findIdx_holds_lt.mp h
  have h2 := mt findIdx_isEmpty_lt.mp hf
  simp [step, h1, h2]



theorem resident_rowStep {row : List CacheLine} (h : 1 ≤ row.length) (t : Int) :
    Resident (rowStep row t) t := by
  have hk := slot_lt h t
  have hk2 : slot row t < (rowStep row t).length := by rw [rowStep_length]; exact hk
  refine ⟨lineAt (rowStep row t) (slot row t), lineAt_mem hk2, ?_⟩
  rw [rowStep, lineAt_rowUpdate hk, if_pos rfl]
  simp

theorem resident_after_step {st : State} {z : Int} (hwf : st.cache.WF)
    (hz : st.cache.InRange z) (hE : 1 ≤ st.cache.E) (t : Int) :
    Resident ((step st t z).cache.row z) t := by
  rw [step_row_same hwf hz]
  exact resident_rowStep (row_length hwf hz hE) t

theorem step_miss {st : State} {t z : Int} (h : ¬ Resident (st.cache.row z) t) :
    (step st t z).hit_count = st.hit_count ∧
    (step st t z).miss_count = st.miss_count + 1 ∧
    (step st t z).eviction_count =
      st.eviction_count + (if HasInvalid (st.cache.row z) then 0 else 1) := by
  by_cases hf : HasInvalid (st.cache.row z)
  · simpa [hf] using step_miss_free h hf
  · simpa [hf] using step_miss_evict h hf


/-! ## The recency order of a set -/

theorem recency_init (n : Nat) : Recency (List.replicate n init_line) [] where
  nodup := List.nodup_nil
  mem := by simp
  le := by simp
  valid := by simp
  fresh := by
    intro i _
    by_cases h : i < n
    · rw [lineAt_of_lt (by simpa using h)]; simp
    · exact lineAt_of_le (by simpa using h)
  tags := by simp
  ages := by simp
  nonneg := by simp

theorem length_cons_erase (idx : List Nat) (k : Nat) :
    (k :: idx.erase k).length = if k ∈ idx then idx.length else idx.length + 1 := by
  by_cases hk : k ∈ idx
  · have : 0 < idx.length := List.length_pos_of_mem hk
    simp [hk, List.length_erase_of_mem hk]
    omega
  · simp [hk, List.erase_of_not_mem hk]

theorem recency_update {row : List CacheLine} {idx : List Nat} (hR : Recency row idx)
    {k : Nat} (hk : k < row.length) (hkidx : k ∈ idx ∨ k = idx.length) {t : Int}
    (ht : t ∉ (idx.erase k).map (tagAt row)) :
    Recency (rowUpdate row k t) (k :: idx.erase k) := by
  have hlen := length_cons_erase idx k
  have hklt : k < (k :: idx.erase k).length := by
    rw [hlen]
    by_cases h : k ∈ idx
    · rw [if_pos h]; exact (hR.mem k).mp h
    · rw [if_neg h]; rcases hkidx with h2 | h2
      · exact absurd h2 h
      · omega
  have hlt_of : ∀ i, i ≠ k → i < (k :: idx.erase k).length → i < idx.length := by
    intro i hik hi
    rw [hlen] at hi
    by_cases h : k ∈ idx
    · rwa [if_pos h] at hi
    · rw [if_neg h] at hi
      rcases hkidx with h2 | h2
      · exact absurd h2 h
      · omega
  have hge_of : ∀ i, (k :: idx.erase k).length ≤ i → idx.length ≤ i := by
    intro i hi
    rw [hlen] at hi
    by_cases h : k ∈ idx
    · rwa [if_pos h] at hi
    · rw [if_neg h] at hi; omega
  have hF1 : ∀ i, i ∈ idx.erase k → i ≠ k ∧ i ∈ idx := fun i hi =>
    (hR.nodup.mem_erase_iff).mp hi
  have htag : (idx.erase k).map (tagAt (rowUpdate row k t)) = (idx.erase k).map (tagAt row) := by
    apply List.map_congr_left
    intro i hi
    simp only [tagAt, lineAt_rowUpdate hk, if_neg (hF1 i hi).1, bump_tag]
  have hage : (idx.erase k).map (ageAt (rowUpdate row k t))
      = (idx.erase k).map (fun i => ageAt row i + 1) := by
    apply List.map_congr_left
    intro i hi
    have hv := hR.valid i ((hR.mem i).mp (hF1 i hi).2)
    simp [ageAt, lineAt_rowUpdate hk, if_neg (hF1 i hi).1, bump, hv]
  refine ⟨?_, ?_, ?_, ?_, ?_, ?_, ?_, ?_⟩
  · exact List.nodup_cons.mpr ⟨fun h => (hF1 k h).1 rfl, hR.nodup.erase k⟩
  · intro i
    constructor
    · intro hi
      rcases List.mem_cons.mp hi with h | h
      · rw [h]; exact hklt
      · have := (hR.mem i).mp (hF1 i h).2
        rw [hlen]; split <;> omega
    · intro hi
      by_cases hik : i = k
      · rw [hik]; exact List.mem_cons_self _ _
      · exact List.mem_cons_of_mem _
          ((hR.nodup.mem_erase_iff).mpr ⟨hik, (hR.mem i).mpr (hlt_of i hik hi)⟩)
  · rw [rowUpdate_length, hlen]
    have := hR.le
    split
    · exact this
    · rcases hkidx with h2 | h2
      · contradiction
      · omega
  · intro i hi
    rw [lineAt_rowUpdate hk]
    by_cases hik : i = k
    · simp [hik]
    · rw [if_neg hik, bump_valid]; exact hR.valid i (hlt_of i hik hi)
  · intro i hi
    have hik : i ≠ k := by omega
    rw [lineAt_rowUpdate hk, if_neg hik, hR.fresh i (hge_of i hi), bump_init_line]
  · rw [List.map_cons, htag]
    refine List.nodup_cons.mpr ⟨?_, (hR.tags.sublist ((List.erase_sublist k idx).map _))⟩
    simpa [tagAt, lineAt_rowUpdate hk] using ht
  · rw [List.map_cons, hage, List.pairwise_cons]
    constructor
    · intro a ha
      obtain ⟨i, hi, rfl⟩ := List.mem_map.mp ha
      have := hR.nonneg i (hF1 i hi).2
      simp only [ageAt] at this
      simp only [ageAt, lineAt_rowUpdate hk, if_true]
      omega
    · have h1 : ((idx.erase k).map (ageAt row)).Pairwise (· < ·) :=
        hR.ages.sublist ((List.erase_sublist k idx).map _)
      rw [List.pairwise_map] at h1 ⊢
      exact h1.imp (fun h => by omega)
  · intro i hi
    rcases List.mem_cons.mp hi with h | h
    · simp [h, ageAt, lineAt_rowUpdate hk]
    · have := hR.nonneg i (hF1 i h).2
      have hv := hR.valid i ((hR.mem i).mp (hF1 i h).2)
      simp only [ageAt] at this
      simp [ageAt, lineAt_rowUpdate hk, if_neg (hF1 i h).1, bump, hv]
      omega

/-! ## The scans on a row in recency shape -/

theorem map_erase_of_nodup (f : Nat → Int) (k : Nat) :
    ∀ idx : List Nat, (idx.map f).Nodup → k ∈ idx →
      (idx.erase k).map f = (idx.map f).erase (f k) := by
  intro idx
  induction idx with
  | nil => intro _ h; simp at h
  | cons a as ih =>
    intro hnd hk
    rw [List.map_cons, List.nodup_cons] at hnd
    by_cases hak : a = k
    · subst hak; simp
    · have hk2 : k ∈ as := by
        rcases List.mem_cons.mp hk with h | h
        · exact absurd h.symm hak
        · exact h
      have hne : f a ≠ f k := fun h => hnd.1 (h ▸ List.mem_map_of_mem f hk2)
      rw [List.erase_cons_tail (by simpa using hak), List.map_cons, List.map_cons,
        List.erase_cons_tail (by simpa using hne), ih hnd.2 hk2]

theorem recency_resident {row : List CacheLine} {idx : List Nat} (hR : Recency row idx)
    (t : Int) : Resident row t ↔ t ∈ idx.map (tagAt row) := by
  constructor
  · rintro ⟨l, hl, hv, ht⟩
    obtain ⟨i, hi, rfl⟩ := exists_lineAt_of_mem hl
    have hlt : i < idx.length := by
      by_contra hge
      rw [hR.fresh i (by omega)] at hv
      exact hv rfl
    exact List.mem_map.mpr ⟨i, (hR.mem i).mpr hlt, ht⟩
  · intro h
    obtain ⟨i, hi, rfl⟩ := List.mem_map.mp h
    have hlt := (hR.mem i).mp hi
    refine ⟨lineAt row i, lineAt_mem (by have := hR.le; omega), ?_, rfl⟩
    rw [hR.valid i hlt]; decide

theorem recency_hit_slot {row : List CacheLine} {idx : List Nat} (hR : Recency row idx)
    {t : Int} (h : Resident row t) :
    slot row t ∈ idx ∧ tagAt row (slot row t) = t := by
  have hlt := findIdx_holds_lt.mpr h
  have hp : holds t (row[row.findIdx (holds t)]) = true := List.findIdx_getElem
  rw [← lineAt_of_lt hlt] at hp
  have hs : slot row t = row.findIdx (holds t) := by simp [slot, hlt]
  rw [hs]
  simp only [holds, decide_eq_true_eq] at hp
  refine ⟨?_, hp.2⟩
  rw [hR.mem]
  by_contra hge
  rw [hR.fresh _ (by omega)] at hp
  exact hp.1 rfl

theorem recency_hasInvalid {row : List CacheLine} {idx : List Nat} (hR : Recency row idx) :
    HasInvalid row ↔ idx.length < row.length := by
  constructor
  · rintro ⟨l, hl, hv⟩
    obtain ⟨i, hi, rfl⟩ := exists_lineAt_of_mem hl
    by_contra hge
    have := hR.valid i (by omega)
    rw [this] at hv
    exact absurd hv (by decide)
  · intro h
    refine ⟨lineAt row idx.length, lineAt_mem h, ?_⟩
    rw [hR.fresh _ (le_refl _)]; rfl

theorem recency_free_slot {row : List CacheLine} {idx : List Nat} (hR : Recency row idx)
    {t : Int} (h : ¬ Resident row t) (hf : HasInvalid row) : slot row t = idx.length := by
  have hlt := (recency_hasInvalid hR).mp hf
  have h1 := mt findIdx_holds_lt.mp h
  have h2 := findIdx_isEmpty_lt.mpr hf
  have hs : slot row t = row.findIdx isEmpty := by simp [slot, h1, h2]
  rw [hs, List.findIdx_eq hlt]
  constructor
  · rw [← lineAt_of_lt hlt, hR.fresh _ (le_refl _)]; rfl
  · intro j hj
    rw [← lineAt_of_lt (by omega)]
    have := hR.valid j hj
    simp [isEmpty, this]

theorem rowLru_spec (row : List CacheLine) :
    ∀ n i (mi mt : Int), i + n = row.length →
      (rowLru (row.drop i) i mi mt = mi ∧ ∀ j, i ≤ j → j < row.length → ageAt row j ≤ mt) ∨
      (∃ k : Nat, rowLru (row.drop i) i mi mt = k ∧ i ≤ k ∧ k < row.length ∧ mt < ageAt row k ∧
        (∀ j, i ≤ j → j < row.length → ageAt row j ≤ ageAt row k) ∧
        (∀ j, i ≤ j → j < k → ageAt row j < ageAt row k)) := by
  intro n
  induction n with
  | zero =>
    intro i mi mt hi
    left
    have : row.drop i = [] := List.drop_of_length_le (by omega)
    rw [this]
    exact ⟨rfl, fun j h1 h2 => by omega⟩
  | succ n ih =>
    intro i mi mt hi
    have hlt : i < row.length := by omega
    have hage : ageAt row i = row[i].time_stamp := by rw [ageAt, lineAt_of_lt hlt]
    rw [List.drop_eq_getElem_cons hlt, rowLru]
    by_cases hgt : row[i].time_stamp > mt
    · rw [if_pos hgt]
      right
      rcases ih (i + 1) i row[i].time_stamp (by omega) with ⟨h1, h2⟩ | ⟨k, h1, h2, h3, h4, h5, h6⟩
      · refine ⟨i, h1, le_refl _, hlt, by omega, ?_, fun j a b => by omega⟩
        intro j hj hj2
        by_cases hji : j = i
        · rw [hji]
        · rw [hage]; exact h2 j (by omega) hj2
      · refine ⟨k, h1, by omega, h3, by omega, ?_, ?_⟩
        · intro j hj hj2
          by_cases hji : j = i
          · rw [hji]; omega
          · exact h5 j (by omega) hj2
        · intro j hj hj2
          by_cases hji : j = i
          · rw [hji]; omega
          · exact h6 j (by omega) hj2
    · rw [if_neg hgt]
      rcases ih (i + 1) mi mt (by omega) with ⟨h1, h2⟩ | ⟨k, h1, h2, h3, h4, h5, h6⟩
      · left
        refine ⟨h1, ?_⟩
        intro j hj hj2
        by_cases hji : j = i
        · rw [hji]; omega
        · exact h2 j (by omega) hj2
      · right
        refine ⟨k, h1, by omega, h3, h4, ?_, ?_⟩
        · intro j hj hj2
          by_cases hji : j = i
          · rw [hji]; omega
          · exact h5 j (by omega) hj2
        · intro j hj hj2
          by_cases hji : j = i
          · rw [hji]; omega
          · exact h6 j (by omega) hj2

/-- What `find_lru` returns on a non-empty row with non-negative ages: an
index in range whose age is maximal, and the lowest such index. -/
theorem rowLru_max {row : List CacheLine} (h1 : 1 ≤ row.length)
    (hnn : ∀ j, j < row.length → 0 ≤ ageAt row j) :
    (rowLru row 0 0 0).toNat < row.length ∧
    (∀ j, j < row.length → ageAt row j ≤ ageAt row (rowLru row 0 0 0).toNat) ∧
    (∀ j, j < (rowLru row 0 0 0).toNat → ageAt row j < ageAt row (rowLru row 0 0 0).toNat) := by
  have := rowLru_spec row row.length 0 0 0 (by omega)
  rw [List.drop_zero] at this
  rcases this with ⟨h2, h3⟩ | ⟨k, h2, _, h4, _, h6, h7⟩
  · rw [h2]
    refine ⟨by simpa using h1, ?_, fun j hj => by simp at hj⟩
    intro j hj
    have a := h3 j (by omega) hj
    have b := hnn 0 (by omega)
    simp only [Int.toNat_zero]
    omega
  · rw [h2]
    simp only [Int.toNat_ofNat]
    exact ⟨h4, fun j hj => h6 j (by omega) hj, fun j hj => h7 j (by omega) hj⟩

theorem erase_getLast {idx : List Nat} (hnd : idx.Nodup) (hne : idx ≠ []) :
    idx.erase (idx.getLast hne) = idx.dropLast := by
  have hsplit := List.dropLast_append_getLast hne
  have hnd2 := hnd
  rw [← hsplit, List.nodup_append] at hnd2
  have hnot : idx.getLast hne ∉ idx.dropLast := fun h =>
    hnd2.2.2 h (List.mem_singleton_self _)
  have key : (idx.dropLast ++ [idx.getLast hne]).erase (idx.getLast hne) = idx.dropLast := by
    rw [List.erase_append_right _ hnot]
    simp
  rw [hsplit] at key
  exact key

theorem recency_full {row : List CacheLine} {idx : List Nat} (hR : Recency row idx)
    (hf : ¬ HasInvalid row) : idx.length = row.length := by
  have h1 := mt (recency_hasInvalid hR).mpr hf
  have h2 := hR.le
  omega

theorem recency_lru_slot {row : List CacheLine} {idx : List Nat} (hR : Recency row idx)
    {t : Int} (h : ¬ Resident row t) (hf : ¬ HasInvalid row) (h1 : 1 ≤ row.length) :
    ∃ hne : idx ≠ [], slot row t = idx.getLast hne := by
  have hfull := recency_full hR hf
  have hne : idx ≠ [] := by
    intro h0; rw [h0] at hfull; simp at hfull; omega
  refine ⟨hne, ?_⟩
  have e1 := mt findIdx_holds_lt.mp h
  have e2 := mt findIdx_isEmpty_lt.mp hf
  have hs : slot row t = (rowLru row 0 0 0).toNat := by simp [slot, e1, e2]
  rw [hs]
  have hnn : ∀ j, j < row.length → 0 ≤ ageAt row j := fun j hj =>
    hR.nonneg j ((hR.mem j).mpr (by omega))
  obtain ⟨hv, hmax, _⟩ := rowLru_max h1 hnn
  have hsplit := List.dropLast_append_getLast hne
  have hages := hR.ages
  rw [← hsplit, List.map_append, List.pairwise_append] at hages
  have hw : idx.getLast hne ∈ idx := List.getLast_mem hne
  have hwlt : idx.getLast hne < row.length := by
    have := (hR.mem _).mp hw; omega
  by_contra hvw
  have hvmem : (rowLru row 0 0 0).toNat ∈ idx := (hR.mem _).mpr (by omega)
  rw [← hsplit, List.mem_append] at hvmem
  rcases hvmem with hd | hl
  · have := hages.2.2 _ (List.mem_map_of_mem (ageAt row) hd) (ageAt row (idx.getLast hne))
      (by simp)
    have := hmax _ hwlt
    omega
  · exact hvw (List.mem_singleton.mp hl)

/-! ## One access against the reference list -/

theorem outcome_step (st : State) (t z : Int) :
    outcome st (step st t z) = some (rowOutcome (st.cache.row z) t) := by
  by_cases h : Resident (st.cache.row z) t
  · obtain ⟨a, b, c⟩ := @step_hit st t z h
    simp [outcome, rowOutcome, h, a, b, c]
  · by_cases hf : HasInvalid (st.cache.row z)
    · obtain ⟨a, b, c⟩ := step_miss_free h hf
      simp [outcome, rowOutcome, h, hf, a, b, c]
    · obtain ⟨a, b, c⟩ := step_miss_evict h hf
      simp [outcome, rowOutcome, h, hf, a, b, c]

theorem mem_residents {row : List CacheLine} {x : Int} : x ∈ residents row ↔ Resident row x := by
  simp [residents, Resident, and_assoc]

theorem find_none_of_forall {l : List Int} {p : Int → Bool} (h : ∀ x ∈ l, p x = false) :
    l.find? p = none := by
  simpa using h

theorem find_some_of_unique {p : Int → Bool} {w : Int} :
    ∀ l : List Int, w ∈ l → p w = true → (∀ x ∈ l, p x = true → x = w) → l.find? p = some w := by
  intro l
  induction l with
  | nil => intro h; simp at h
  | cons a as ih =>
    intro hw hp hu
    by_cases hpa : p a = true
    · have := hu a (List.mem_cons_self _ _) hpa
      subst this
      simp [List.find?_cons, hpa]
    · have hne : a ≠ w := fun h => hpa (h ▸ hp)
      have hw2 : w ∈ as := by
        rcases List.mem_cons.mp hw with h | h
        · exact absurd h.symm hne
        · exact h
      simp only [Bool.not_eq_true] at hpa
      rw [List.find?_cons, hpa]
      exact ih hw2 hp (fun x hx => hu x (List.mem_cons_of_mem _ hx))

theorem tags_update {row : List CacheLine} {idx : List Nat} (hR : Recency row idx)
    {k : Nat} (hk : k < row.length) (t : Int) :
    (k :: idx.erase k).map (tagAt (rowUpdate row k t)) = t :: (idx.erase k).map (tagAt row) := by
  rw [List.map_cons]
  congr 1
  · simp [tagAt, lineAt_rowUpdate hk]
  · apply List.map_congr_left
    intro i hi
    have := ((hR.nodup.mem_erase_iff).mp hi).1
    simp only [tagAt, lineAt_rowUpdate hk, if_neg this, bump_tag]

/-- One step of the simulation: from a row in recency shape, `update_info`
leaves a row in recency shape whose tag list, outcome and evicted tag are the
ones of the reference model. -/
theorem recency_step {row : List CacheLine} {idx : List Nat} (hR : Recency row idx)
    (h1 : 1 ≤ row.length) (t : Int) :
    ∃ idx', Recency (rowStep row t) idx' ∧
      ref_access row.length (idx.map (tagAt row)) t =
        (idx'.map (tagAt (rowStep row t)), rowOutcome row t, evicted row (rowStep row t)) := by
  have hk := slot_lt h1 t
  have hres := recency_resident hR
  have htu : (slot row t :: idx.erase (slot row t)).map (tagAt (rowStep row t))
      = t :: (idx.erase (slot row t)).map (tagAt row) := tags_update hR hk t
  by_cases h : Resident row t
  · -- hit
    obtain ⟨hmem, htag⟩ := recency_hit_slot hR h
    have hRt := hR.tags
    have hel : (idx.erase (slot row t)).map (tagAt row) = (idx.map (tagAt row)).erase t := by
      rw [map_erase_of_nodup _ _ idx hR.tags hmem, htag]
    have hnot : t ∉ (idx.erase (slot row t)).map (tagAt row) := by
      rw [hel]; exact fun hin => (List.Nodup.mem_erase_iff hRt).mp hin |>.1 rfl
    have hR' : Recency (rowStep row t) _ := recency_update hR hk (Or.inl hmem) hnot
    refine ⟨_, hR', ?_⟩
    have hev : evicted row (rowStep row t) = none := by
      apply find_none_of_forall
      intro x hx
      have hx1 := (hres x).mp (mem_residents.mp hx)
      have : x ∈ residents (rowStep row t) := by
        rw [mem_residents, recency_resident hR', htu, hel]
        by_cases hxt : x = t
        · rw [hxt]; exact List.mem_cons_self _ _
        · exact List.mem_cons_of_mem _ ((List.Nodup.mem_erase_iff hRt).mpr ⟨hxt, hx1⟩)
      simpa using this
    rw [hev, htu, hel]
    simp [ref_access, rowOutcome, h, (hres t).mp h]
  · have hnin : t ∉ idx.map (tagAt row) := fun hin => h ((hres t).mpr hin)
    by_cases hf : HasInvalid row
    · -- miss, free line
      have hs := recency_free_slot hR h hf
      have hkn : slot row t ∉ idx := by
        rw [hs, hR.mem]; omega
      have her : idx.erase (slot row t) = idx := List.erase_of_not_mem hkn
      have hR' : Recency (rowStep row t) _ :=
        recency_update hR hk (Or.inr hs) (by rw [her]; exact hnin)
      refine ⟨_, hR', ?_⟩
      have hev : evicted row (rowStep row t) = none := by
        apply find_none_of_forall
        intro x hx
        have hx1 := (hres x).mp (mem_residents.mp hx)
        have : x ∈ residents (rowStep row t) := by
          rw [mem_residents, recency_resident hR', htu, her]
          exact List.mem_cons_of_mem _ hx1
        simpa using this
      have hlt : (idx.map (tagAt row)).length < row.length := by
        rw [List.length_map]; exact (recency_hasInvalid hR).mp hf
      rw [hev, htu, her]
      simp only [ref_access, if_neg hnin, if_pos hlt, rowOutcome, if_neg h, if_pos hf]
    · -- miss, eviction
      obtain ⟨hne, hs⟩ := recency_lru_slot hR h hf h1
      have hmem : slot row t ∈ idx := by rw [hs]; exact List.getLast_mem hne
      have her : idx.erase (slot row t) = idx.dropLast := by rw [hs]; exact erase_getLast hR.nodup hne
      have hsub : idx.dropLast.Sublist idx := List.dropLast_sublist idx
      have hnot : t ∉ (idx.erase (slot row t)).map (tagAt row) := by
        rw [her]; exact fun hin => hnin ((hsub.map _).subset hin)
      have hR' : Recency (rowStep row t) _ := recency_update hR hk (Or.inl hmem) hnot
      refine ⟨_, hR', ?_⟩
      have hfull : ¬ (idx.map (tagAt row)).length < row.length := by
        rw [List.length_map, recency_full hR hf]; omega
      have hlast : (idx.map (tagAt row)).getLast? = some (tagAt row (idx.getLast hne)) := by
        rw [List.getLast?_map, List.getLast?_eq_getLast _ hne]; rfl
      have hwne : tagAt row (idx.getLast hne) ≠ t := fun e =>
        hnin (e ▸ List.mem_map_of_mem _ (List.getLast_mem hne))
      have hwnot : tagAt row (idx.getLast hne) ∉ idx.dropLast.map (tagAt row) := by
        have hsplit := List.dropLast_append_getLast hne
        have := hR.tags
        rw [← hsplit, List.map_append, List.nodup_append] at this
        exact fun hin => this.2.2 hin (by simp)
      have hev : evicted row (rowStep row t) = some (tagAt row (idx.getLast hne)) := by
        apply find_some_of_unique
        · exact mem_residents.mpr ((hres _).mpr (List.mem_map_of_mem _ (List.getLast_mem hne)))
        · rw [decide_eq_true_eq, mem_residents, recency_resident hR', htu, her]
          simp only [List.mem_cons, not_or]
          exact ⟨hwne, hwnot⟩
        · intro x hx hp
          have hx1 := (hres x).mp (mem_residents.mp hx)
          rw [decide_eq_true_eq, mem_residents, recency_resident hR', htu, her] at hp
          simp only [List.mem_cons, not_or] at hp
          have hsplit := List.dropLast_append_getLast hne
          rw [← hsplit, List.map_append, List.mem_append] at hx1
          rcases hx1 with hd | hl
          · exact absurd hd hp.2
          · simpa using hl
      rw [hev, htu, her, ← hlast]
      simp only [ref_access, if_neg hnin, if_neg hfull, rowOutcome, if_neg h, if_neg hf,
        List.map_dropLast]

/-! ## Sequences of accesses -/

theorem access_trace_sim (z : Int) :
    ∀ (tags : List Int) (st : State) (idx : List Nat), st.cache.WF → st.cache.InRange z →
      1 ≤ st.cache.E → Recency (st.cache.row z) idx →
      access_trace z st tags =
        some ((ref_trace (st.cache.row z).length (idx.map (tagAt (st.cache.row z))) tags).map
          fun e => (some e.1, e.2)) := by
  intro tags
  induction tags with
  | nil => intro st idx _ _ _ _; rfl
  | cons t ts ih =>
    intro st idx hwf hz hE hR
    have h1 := row_length hwf hz hE
    obtain ⟨idx', hR', href⟩ := recency_step hR h1 t
    have hrow := step_row_same hwf hz t
    rw [← hrow] at hR'
    have ih2 := ih (step st t z) idx' (step_WF hwf hz t) hz hE hR'
    rw [access_trace, update_info_eq hwf hz hE t]
    simp only
    rw [ih2, outcome_step, hrow, rowStep_length, ref_trace, href]
    simp

theorem init_state_row {s E b : Int} {st : State} (h : init_state s E b = some st) {z : Int}
    (hz : st.cache.InRange z) :
    st.cache.row z = List.replicate E.toNat init_line ∧ st.cache.E = E ∧
    st.hit_count = 0 ∧ st.miss_count = 0 ∧ st.eviction_count = 0 := by
  unfold init_state at h
  cases hc : init_cache s E b with
  | none => rw [hc] at h; cases h
  | some c =>
  rw [hc] at h
  simp only [Option.map_some', Option.some.injEq] at h
  obtain ⟨hs, _, _, _, hceq⟩ := init_cache_eq hc
  subst hceq
  subst h
  obtain ⟨h0, h1⟩ := hz
  simp only at h1
  refine ⟨?_, rfl, rfl, rfl, rfl⟩
  have hlt : z.toNat < ((2 : Int) ^ s.toNat).toNat := by omega
  simp [Cache.row, h0, List.getD, List.getElem?_replicate, hlt]

theorem init_state_WF {s E b : Int} {st : State} (h : init_state s E b = some st)
    (hE : 0 ≤ E) : st.cache.WF ∧ st.cache.E = E := by
  unfold init_state at h
  cases hc : init_cache s E b with
  | none => rw [hc] at h; cases h
  | some c =>
    rw [hc] at h
    simp only [Option.map_some', Option.some.injEq] at h
    subst h
    exact ⟨(init_cache_WF hc hE).1, (init_cache_WF hc hE).2.1⟩

theorem init_trace {s E b : Int} {st0 : State} (hE : 1 ≤ E) (hinit : init_state s E b = some st0)
    {z : Int} (hz : st0.cache.InRange z) (tags : List Int) :
    access_trace z st0 tags =
      some ((ref_trace E.toNat [] tags).map fun e => (some e.1, e.2)) := by
  obtain ⟨hwf, hcE⟩ := init_state_WF hinit (by omega)
  obtain ⟨hrow, _⟩ := init_state_row hinit hz
  have hR : Recency (st0.cache.row z) [] := by rw [hrow]; exact recency_init _
  have := access_trace_sim z tags st0 [] hwf hz (by rw [hcE]; exact hE) hR
  rw [this, hrow]
  simp

/-! ## Counter accounting over a trace -/

theorem step_counts (st : State) (t z : Int) :
    (step st t z).hit_count + (step st t z).miss_count = st.hit_count + st.miss_count + 1 ∧
    (step st t z).eviction_count - st.eviction_count
      ≤ (step st t z).miss_count - st.miss_count ∧
    st.eviction_count ≤ (step st t z).eviction_count := by
  simp only [step]
  by_cases h1 : List.findIdx (holds t) (st.cache.row z) < (st.cache.row z).length <;>
  by_cases h2 : List.findIdx isEmpty (st.cache.row z) < (st.cache.row z).length <;>
  simp [h1, h2] <;> omega

theorem decode_inRange {s b : Int} {addr : Nat} (hs : 1 ≤ s) (hb : 0 ≤ b) (hsb : s + b ≤ 31)
    (ha : addr < 2 ^ 32) {c : Cache} (hS : c.S = 2 ^ s.toNat) :
    ∃ t z, decode s b addr = some (t, z) ∧ c.InRange z := by
  refine ⟨_, _, decode_eq s b addr hs hb hsb ha, ?_, ?_⟩
  · positivity
  · rw [hS]
    have : addr / 2 ^ b.toNat % 2 ^ s.toNat < 2 ^ s.toNat := Nat.mod_lt _ (by positivity)
    exact_mod_cast this

theorem trace_step_counts {s b : Int} (hs : 1 ≤ s) (hb : 0 ≤ b) (hsb : s + b ≤ 31)
    {st : State} (hwf : st.cache.WF) (hS : st.cache.S = 2 ^ s.toNat) (hE : 1 ≤ st.cache.E)
    (r : Record) (ha : r.addr < 2 ^ 32) :
    ∃ st', trace_step s b st r = some st' ∧ st'.cache.WF ∧ st'.cache.S = st.cache.S ∧
      st'.cache.E = st.cache.E ∧
      st'.hit_count + st'.miss_count = st.hit_count + st.miss_count + accesses r ∧
      st'.eviction_count - st.eviction_count ≤ st'.miss_count - st.miss_count := by
  obtain ⟨t, z, hdec, hz⟩ := decode_inRange hs hb hsb ha hS
  have e1 := update_info_eq hwf hz hE t
  have e2 := update_info_eq (step_WF hwf hz t) hz hE t
  have c1 := step_counts st t z
  have c2 := step_counts (step st t z) t z
  by_cases hM : r.identifier = 'M'
  · refine ⟨step (step st t z) t z, by simp [trace_step, hdec, hM, e1, e2],
      step_WF (step_WF hwf hz t) hz t, rfl, rfl, ?_, ?_⟩
    · simp only [accesses, hM, if_true]; omega
    · omega
  · by_cases hL : r.identifier = 'L'
    · refine ⟨step st t z, by simp [trace_step, hdec, hL, e1], step_WF hwf hz t, rfl, rfl, ?_, ?_⟩
      · simp [accesses, hL]; omega
      · omega
    · by_cases hS2 : r.identifier = 'S'
      · refine ⟨step st t z, by simp [trace_step, hdec, hS2, e1], step_WF hwf hz t, rfl, rfl,
          ?_, ?_⟩
        · simp [accesses, hS2]; omega
        · omega
      · exact ⟨st, by simp [trace_step, hdec, hM, hL, hS2], hwf, rfl, rfl,
          by simp [accesses, hM, hL, hS2], by omega⟩

theorem get_trace_counts {s b : Int} (hs : 1 ≤ s) (hb : 0 ≤ b) (hsb : s + b ≤ 31) :
    ∀ (rs : List Record) (st : State), st.cache.WF → st.cache.S = 2 ^ s.toNat →
      1 ≤ st.cache.E → (∀ r ∈ rs, r.addr < 2 ^ 32) →
      ∃ st', get_trace s b st rs = some st' ∧
        st'.hit_count + st'.miss_count = st.hit_count + st.miss_count + (rs.map accesses).sum ∧
        st'.eviction_count - st.eviction_count ≤ st'.miss_count - st.miss_count := by
  intro rs
  induction rs with
  | nil => intro st _ _ _ _; exact ⟨st, rfl, by simp, by omega⟩
  | cons r rs ih =>
    intro st hwf hS hE ha
    obtain ⟨st1, h1, hwf1, hS1, hE1, hc1, he1⟩ :=
      trace_step_counts hs hb hsb hwf hS hE r (ha r (List.mem_cons_self _ _))
    obtain ⟨st2, h2, hc2, he2⟩ := ih st1 hwf1 (by rw [hS1, hS]) (by rw [hE1]; exact hE)
      (fun r hr => ha r (List.mem_cons_of_mem _ hr))
    refine ⟨st2, by simp [get_trace, h1, h2], ?_, by omega⟩
    simp only [List.map_cons, List.sum_cons]
    omega

theorem sum_accesses (rs : List Record) :
    (rs.map accesses).sum =
      (rs.countP (fun r => r.identifier = 'L') : Int) + rs.countP (fun r => r.identifier = 'S')
        + 2 * rs.countP (fun r => r.identifier = 'M') := by
  induction rs with
  | nil => simp
  | cons r rs ih =>
    simp only [List.map_cons, List.sum_cons, ih, List.countP_cons, accesses]
    by_cases hM : r.identifier = 'M'
    · simp [hM]; omega
    · by_cases hL : r.identifier = 'L'
      · simp [hL]; omega
      · by_cases hS : r.identifier = 'S'
        · simp [hS]; omega
        · simp [hM, hL, hS]


/-! ## Reachable states -/

theorem cacheInv_init {s E b : Int} {st : State} (h : init_state s E b = some st)
    (hE : 1 ≤ E) : CacheInv st.cache := by
  obtain ⟨hwf, hcE⟩ := init_state_WF h (by omega)
  refine ⟨hwf, by rw [hcE]; exact hE, fun z hz => ⟨[], ?_⟩⟩
  rw [(init_state_row h hz).1]
  exact recency_init _

theorem cacheInv_step {st : State} (hI : CacheInv st.cache) {z : Int}
    (hz : st.cache.InRange z) (t : Int) : CacheInv (step st t z).cache := by
  obtain ⟨hwf, hE, hrows⟩ := hI
  refine ⟨step_WF hwf hz t, hE, fun z2 hz2 => ?_⟩
  have hz2' : st.cache.InRange z2 := hz2
  by_cases hzz : z2 = z
  · subst hzz
    obtain ⟨idx, hR⟩ := hrows z2 hz
    obtain ⟨idx', hR', _⟩ := recency_step hR (row_length hwf hz hE) t
    exact ⟨idx', by rw [step_row_same hwf hz]; exact hR'⟩
  · obtain ⟨idx, hR⟩ := hrows z2 hz2'
    exact ⟨idx, by rw [step_row_other hz hz2' hzz]; exact hR⟩

theorem reachable_inv {s E b : Int} (hE : 1 ≤ E) {st : State} (h : Reachable s E b st) :
    CacheInv st.cache := by
  induction h with
  | init hinit => exact cacheInv_init hinit hE
  | access t z _ hz hup ih =>
    rw [update_info_eq ih.1 hz ih.2.1 t] at hup
    cases hup
    exact cacheInv_step ih hz t

theorem ref_trace_distinct (E : Nat) :
    ∀ (tags lst : List Int), tags.Nodup → (∀ t ∈ tags, t ∉ lst) →
      lst.length + tags.length = E + 1 → lst.length ≤ E →
      (ref_trace E lst tags).map Prod.fst =
        List.replicate (E - lst.length) Outcome.MissNoEviction ++ [Outcome.MissWithEviction] := by
  intro tags
  induction tags with
  | nil => intro lst _ _ h1 h2; simp at h1; omega
  | cons t ts ih =>
    intro lst hnd hdis hlen hle
    have htl : t ∉ lst := hdis t (List.mem_cons_self _ _)
    rw [List.nodup_cons] at hnd
    simp only [List.length_cons] at hlen
    by_cases hlt : lst.length < E
    · have hra : ref_access E lst t = (t :: lst, Outcome.MissNoEviction, none) := by
        simp [ref_access, htl, hlt]
      rw [ref_trace, hra, List.map_cons]
      simp only
      rw [ih (t :: lst) hnd.2 ?_ (by simp; omega) (by simp; omega)]
      · have : E - lst.length = (E - (t :: lst).length) + 1 := by simp; omega
        rw [this, List.replicate_succ]
        simp
      · intro x hx hxin
        rcases List.mem_cons.mp hxin with h | h
        · exact hnd.1 (h ▸ hx)
        · exact hdis x (List.mem_cons_of_mem _ hx) h
    · have hts : ts = [] := List.length_eq_zero.mp (by omega)
      have hra : (ref_access E lst t).2.1 = Outcome.MissWithEviction := by
        simp [ref_access, htl, hlt]
      have h0 : E - lst.length = 0 := by omega
      rw [ref_trace, hts, List.map_cons, hra, h0]
      simp [ref_trace]

/-! ## What an access leaves unchanged -/

theorem map_length_set {α : Type} (l : List (List α)) (n : Nat) (r : List α)
    (h : ∀ x, l[n]? = some x → r.length = x.length) :
    (l.set n r).map List.length = l.map List.length := by
  apply List.ext_getElem?
  intro i
  rw [List.getElem?_map, List.getElem?_map, List.getElem?_set]
  by_cases hin : n = i
  · subst hin
    by_cases hlt : n < l.length
    · simp [hlt, h _ (List.getElem?_eq_getElem hlt)]
    · simp [hlt, List.getElem?_eq_none (Nat.le_of_not_lt hlt)]
  · simp [hin]

theorem step_lengths {st : State} {z : Int} (hwf : st.cache.WF) (hz : st.cache.InRange z)
    (t : Int) :
    (step st t z).cache.line.map List.length = st.cache.line.map List.length := by
  obtain ⟨hrow, _⟩ := row_of_inRange hwf hz
  rw [step_cache]
  apply map_length_set
  intro x hx
  rw [hrow] at hx
  cases hx
  exact rowStep_length _ _

theorem step_line_other (st : State) (t z : Int) {n : Nat} (hn : n ≠ z.toNat) :
    (step st t z).cache.line[n]? = st.cache.line[n]? := by
  rw [step_cache]
  simp only [Cache.setRow]
  exact List.getElem?_set_ne (fun h => hn h.symm)

/-! ## Facts about rows in recency shape -/

theorem recency_valid_mem {row : List CacheLine} {idx : List Nat} (hR : Recency row idx)
    {k : Nat} (hv : (lineAt row k).valid ≠ 0) : k ∈ idx := by
  rw [hR.mem]
  by_contra hge
  rw [hR.fresh k (by omega)] at hv
  exact hv rfl

theorem recency_ages_ne {row : List CacheLine} {idx : List Nat} (hR : Recency row idx)
    {i j : Nat} (hij : i ≠ j) (hvi : (lineAt row i).valid ≠ 0) (hvj : (lineAt row j).valid ≠ 0) :
    ageAt row i ≠ ageAt row j := by
  have hnd : (idx.map (ageAt row)).Nodup := hR.ages.imp (fun h => ne_of_lt h)
  exact fun h => hij (List.inj_on_of_nodup_map hnd (recency_valid_mem hR hvi)
    (recency_valid_mem hR hvj) h)

theorem sampleTwo_reachable : Reachable 1 2 1 sampleTwo := by
  have h0 : Reachable 1 2 1 sampleInit := Reachable.init (by decide)
  have h1 : Reachable 1 2 1 (step sampleInit 5 0) :=
    Reachable.access 5 0 h0 (by decide) (by decide)
  exact Reachable.access 6 0 h1 (by decide) (by decide)

/-! ## C1 -/

/-- C1: on a well-formed cache with `E ≥ 1` and an in-range set index,
`update_info(tag, set)` returns, and it counts a hit (only `hit_count` grows,
by 1) when some valid line of the set holds the tag; otherwise a miss without
eviction (only `miss_count` grows, by 1) when the set has an invalid line;
otherwise a miss with eviction (`miss_count` and `eviction_count` grow by 1,
`hit_count` is unchanged). -/
theorem update_info_classifies (st : State) (op_t op_s : Int)
    (hwf : st.cache.WF) (hz : st.cache.InRange op_s) (hE : 1 ≤ st.cache.E) :
    ∃ st', update_info st op_t op_s = some st' ∧
      (Resident (st.cache.row op_s) op_t →
        st'.hit_count = st.hit_count + 1 ∧ st'.miss_count = st.miss_count ∧
        st'.eviction_count = st.eviction_count) ∧
      (¬ Resident (st.cache.row op_s) op_t → HasInvalid (st.cache.row op_s) →
        st'.hit_count = st.hit_count ∧ st'.miss_count = st.miss_count + 1 ∧
        st'.eviction_count = st.eviction_count) ∧
      (¬ Resident (st.cache.row op_s) op_t → ¬ HasInvalid (st.cache.row op_s) →
        st'.hit_count = st.hit_count ∧ st'.miss_count = st.miss_count + 1 ∧
        st'.eviction_count = st.eviction_count + 1) :=
  ⟨step st op_t op_s, update_info_eq hwf hz hE op_t,
    fun h => step_hit h, fun h hf => step_miss_free h hf, fun h hf => step_miss_evict h hf⟩

/-- Instance of `update_info_classifies`: a hit on tag 5 in set 0 of
`sampleState`. -/
theorem update_info_classifies_witness :
    sampleState.cache.WF ∧ sampleState.cache.InRange 0 ∧ 1 ≤ sampleState.cache.E ∧
    Resident (sampleState.cache.row 0) 5 ∧
    ∃ st', update_info sampleState 5 0 = some st' ∧
      st'.hit_count = 1 ∧ st'.miss_count = 1 ∧ st'.eviction_count = 0 := by
  have hres : Resident (sampleState.cache.row 0) 5 := by decide
  obtain ⟨st', h1, h2, _, _⟩ :=
    update_info_classifies sampleState 5 0 (by decide) (by decide) (by decide)
  exact ⟨by decide, by decide, by decide, hres, st', h1, h2 hres⟩

/-! ## Immediate re-access -/

/-- C4: on a well-formed cache with `E ≥ 1` and an in-range set index, two
consecutive calls `update_info(tag, set)` both return and the second is a hit:
it raises `hit_count` by 1 and leaves `miss_count` and `eviction_count` as
they are. When the tag was not resident before the first call, the first call
is a miss (`miss_count + 1`, `hit_count` unchanged). -/
theorem reaccess_hits (st : State) (op_t op_s : Int)
    (hwf : st.cache.WF) (hz : st.cache.InRange op_s) (hE : 1 ≤ st.cache.E) :
    ∃ st1 st2, update_info st op_t op_s = some st1 ∧ update_info st1 op_t op_s = some st2 ∧
      st2.hit_count = st1.hit_count + 1 ∧ st2.miss_count = st1.miss_count ∧
      st2.eviction_count = st1.eviction_count ∧
      (¬ Resident (st.cache.row op_s) op_t →
        st1.miss_count = st.miss_count + 1 ∧ st1.hit_count = st.hit_count) := by
  refine ⟨step st op_t op_s, step (step st op_t op_s) op_t op_s, update_info_eq hwf hz hE op_t,
    update_info_eq (step_WF hwf hz op_t) hz hE op_t, ?_⟩
  obtain ⟨h1, h2, h3⟩ := step_hit (resident_after_step hwf hz hE op_t)
  exact ⟨h1, h2, h3, fun h => ⟨(step_miss h).2.1, (step_miss h).1⟩⟩

/-- Instance of `reaccess_hits`: tag 7 is accessed twice in set 0 of
`sampleState`, where it is not resident. -/
theorem reaccess_hits_witness :
    sampleState.cache.WF ∧ sampleState.cache.InRange 0 ∧ 1 ≤ sampleState.cache.E ∧
    ∃ st1 st2, update_info sampleState 7 0 = some st1 ∧ update_info st1 7 0 = some st2 ∧
      st2.hit_count = st1.hit_count + 1 ∧ st2.miss_count = st1.miss_count ∧
      st2.eviction_count = st1.eviction_count ∧
      (¬ Resident (sampleState.cache.row 0) 7 →
        st1.miss_count = sampleState.miss_count + 1 ∧ st1.hit_count = sampleState.hit_count) :=
  ⟨by decide, by decide, by decide,
    reaccess_hits sampleState 7 0 (by decide) (by decide) (by decide)⟩

/-! ## The `M` record -/

/-- C7: on a well-formed cache with `E ≥ 1`, an `M` record whose address
decodes to `(op_t, op_s)` with `op_s` in range is processed as two calls
`update_info(op_t, op_s)`; the second call is a hit and evicts nothing. When
the tag was not resident, the record adds 1 to `miss_count`, 1 to `hit_count`,
and to `eviction_count` 1 if the set had no invalid line and 0 otherwise. -/
theorem modify_record (s b : Int) (st : State) (r : Record) (op_t op_s : Int)
    (hM : r.identifier = 'M') (hdec : decode s b r.addr = some (op_t, op_s))
    (hwf : st.cache.WF) (hz : st.cache.InRange op_s) (hE : 1 ≤ st.cache.E) :
    ∃ st1 st2, update_info st op_t op_s = some st1 ∧ update_info st1 op_t op_s = some st2 ∧
      trace_step s b st r = some st2 ∧
      st2.hit_count = st1.hit_count + 1 ∧ st2.miss_count = st1.miss_count ∧
      st2.eviction_count = st1.eviction_count ∧
      (¬ Resident (st.cache.row op_s) op_t →
        st2.miss_count = st.miss_count + 1 ∧ st2.hit_count = st.hit_count + 1 ∧
        st2.eviction_count =
          st.eviction_count + (if HasInvalid (st.cache.row op_s) then 0 else 1)) := by
  have e1 := update_info_eq hwf hz hE op_t
  have e2 := update_info_eq (step_WF hwf hz op_t) hz hE op_t
  refine ⟨step st op_t op_s, step (step st op_t op_s) op_t op_s, e1, e2, ?_, ?_⟩
  · simp [trace_step, hdec, hM, e1, e2]
  · obtain ⟨h1, h2, h3⟩ := step_hit (resident_after_step hwf hz hE op_t)
    refine ⟨h1, h2, h3, fun h => ?_⟩
    obtain ⟨m1, m2, m3⟩ := step_miss h
    exact ⟨by rw [h2, m2], by rw [h1, m1], by rw [h3, m3]⟩

/-- Instance of `modify_record`: the record `M 4,1` with `s = 1`, `b = 1`
decodes to tag 1 in set 0, which is not resident in `sampleState`. -/
theorem modify_record_witness :
    decode 1 1 4 = some (1, 0) ∧ sampleState.cache.WF ∧ sampleState.cache.InRange 0 ∧
    1 ≤ sampleState.cache.E ∧ ¬ Resident (sampleState.cache.row 0) 1 ∧
    ∃ st2, trace_step 1 1 sampleState ⟨'M', 4, 1⟩ = some st2 ∧
      st2.miss_count = 2 ∧ st2.hit_count = 1 ∧ st2.eviction_count = 0 := by
  have hres : ¬ Resident (sampleState.cache.row 0) 1 := by decide
  obtain ⟨_, st2, _, _, h3, _, _, _, h7⟩ :=
    modify_record 1 1 sampleState ⟨'M', 4, 1⟩ 1 0 rfl (by decide) (by decide) (by decide)
      (by decide)
  obtain ⟨a, b, c⟩ := h7 hres
  exact ⟨by decide, by decide, by decide, by decide, hres, st2, h3, a, b, c⟩

/-! ## The age counters implement LRU -/

/-- C2: for `E ≥ 1`, from the state built by `init_cache(s, E, b)`, every
finite sequence of tags accessed in one in-range set is processed by
`update_info` with the same sequence of outcomes (hit, miss without eviction,
miss with eviction) and the same evicted tags as the reference model that keeps
a recency-ordered list of at most `E` tags. -/
theorem lru_refinement (s E b z : Int) (tags : List Int) (st0 : State) (hE : 1 ≤ E)
    (hinit : init_state s E b = some st0) (hz : st0.cache.InRange z) :
    access_trace z st0 tags =
      some ((ref_trace E.toNat [] tags).map fun e => (some e.1, e.2)) :=
  init_trace hE hinit hz tags

/-- Instance of `lru_refinement`: tags 1, 2, 1, 3 in set 0 of a cache with
`E = 2`; the last access evicts tag 2. -/
theorem lru_refinement_witness :
    (1 : Int) ≤ 2 ∧ init_state 1 2 1 = some sampleInit ∧ sampleInit.cache.InRange 0 ∧
    access_trace 0 sampleInit [1, 2, 1, 3] =
      some [(some Outcome.MissNoEviction, none), (some Outcome.MissNoEviction, none),
            (some Outcome.Hit, none), (some Outcome.MissWithEviction, some 2)] :=
  ⟨by decide, by decide, by decide,
    (lru_refinement 1 2 1 0 [1, 2, 1, 3] sampleInit (by decide) (by decide) (by decide)).trans
      (by decide)⟩

/-! ## Counter accounting: the run -/

/-- Counter accounting where the decoding of `get_trace` is defined: for
`E ≥ 1`, `1 ≤ s ≤ 30`, `0 ≤ b`, `s + b ≤ 31` and records with 32-bit addresses, the
run returns, `hit_count + miss_count` is the number of `L` records plus the
number of `S` records plus twice the number of `M` records, and
`eviction_count ≤ miss_count`. -/
theorem run_counts (s E b : Int) (rs : List Record) (hE : 1 ≤ E) (hs : 1 ≤ s) (hs30 : s ≤ 30)
    (hb : 0 ≤ b) (hsb : s + b ≤ 31) (ha : ∀ r ∈ rs, r.addr < 2 ^ 32) :
    ∃ st, run s E b rs = some st ∧
      st.hit_count + st.miss_count =
        (rs.countP (fun r => r.identifier = 'L') : Int)
          + rs.countP (fun r => r.identifier = 'S')
          + 2 * rs.countP (fun r => r.identifier = 'M') ∧
      st.eviction_count ≤ st.miss_count := by
  have hinit : ∃ c, init_cache s E b = some c :=
    ⟨_, init_cache_of_le E (by omega) hs30 hb (by omega)⟩
  obtain ⟨c, hc⟩ := hinit
  obtain ⟨hwf, hcE, hcS, _⟩ := init_cache_WF hc (by omega)
  obtain ⟨st, h1, h2, h3⟩ := get_trace_counts hs hb hsb rs
    { cache := c, hit_count := 0, miss_count := 0, eviction_count := 0 } hwf hcS
    (by rw [hcE]; exact hE) ha
  refine ⟨st, by simp [run, init_state, hc, h1], ?_, ?_⟩
  · rw [← sum_accesses]; simpa using h2
  · simp at h3; omega

/-- C8 (failing case): with `s = 0` the first record already makes `get_trace`
evaluate `-1U >> 32`, so the run of geometry `s = 0, E = 1, b = 0` on the
one-record trace `L 1,1` has no defined final counters. -/
theorem run_s_zero : run 0 1 0 [⟨'L', 1, 1⟩] = none := by decide

/-! ## The end-to-end example -/

/-- C9 as amended: with `s = 1, E = 1, b = 1` the addresses 0 and 4 both
decode to set 0 (tags 0 and 1), so the trace `L 0,1 / L 4,1 / L 0,1` is three
misses, the second and third with an eviction: the run ends with
`hits = 0, misses = 3, evictions = 2`. -/
theorem example_trace :
    decode 1 1 0 = some (0, 0) ∧ decode 1 1 4 = some (1, 0) ∧
    ∃ st0 st1 st2 st3, init_state 1 1 1 = some st0 ∧
      trace_step 1 1 st0 ⟨'L', 0, 1⟩ = some st1 ∧
      trace_step 1 1 st1 ⟨'L', 4, 1⟩ = some st2 ∧
      trace_step 1 1 st2 ⟨'L', 0, 1⟩ = some st3 ∧
      run 1 1 1 [⟨'L', 0, 1⟩, ⟨'L', 4, 1⟩, ⟨'L', 0, 1⟩] = some st3 ∧
      (st1.hit_count, st1.miss_count, st1.eviction_count) = (0, 1, 0) ∧
      (st2.hit_count, st2.miss_count, st2.eviction_count) = (0, 2, 1) ∧
      (st3.hit_count, st3.miss_count, st3.eviction_count) = (0, 3, 2) := by
  refine ⟨by decide, by decide, ?_⟩
  refine ⟨_, _, _, _, rfl, rfl, rfl, rfl, rfl, ?_, ?_, ?_⟩ <;> decide

/-- C9 (counterexample): the run of the example trace does not end with
`hits = 0, misses = 3, evictions ≤ 1`. -/
theorem example_trace_not_le_one :
    ¬ ∃ st, run 1 1 1 [⟨'L', 0, 1⟩, ⟨'L', 4, 1⟩, ⟨'L', 0, 1⟩] = some st ∧
      st.hit_count = 0 ∧ st.miss_count = 3 ∧ st.eviction_count ≤ 1 := by
  rintro ⟨st, h, _, _, h3⟩
  have h2 : run 1 1 1 [⟨'L', 0, 1⟩, ⟨'L', 4, 1⟩, ⟨'L', 0, 1⟩] =
      some { cache := { S := 2, E := 1, B := 2,
                        line := [[{ valid := 1, tag := 0, time_stamp := 0 }], [init_line]] }
             hit_count := 0, miss_count := 3, eviction_count := 2 } := by decide
  rw [h2] at h
  cases h
  revert h3
  decide

/-! ## Filling a set -/

/-- C6: for `E ≥ 1`, from the state built by `init_cache(s, E, b)`, accessing
`E + 1` pairwise distinct tags (any integers) in one in-range set makes each of
the first `E` accesses a miss without eviction and the last one a miss with
eviction (`eviction_count` grows by exactly 1 there and not before). -/
theorem no_eviction_before_full (s E b z : Int) (tags : List Int) (st0 : State) (hE : 1 ≤ E)
    (hinit : init_state s E b = some st0) (hz : st0.cache.InRange z)
    (hnd : tags.Nodup) (hlen : tags.length = E.toNat + 1) :
    ∃ es, access_trace z st0 tags = some es ∧
      es.map Prod.fst =
        List.replicate E.toNat (some Outcome.MissNoEviction) ++
          [some Outcome.MissWithEviction] := by
  refine ⟨_, init_trace hE hinit hz tags, ?_⟩
  have h := ref_trace_distinct E.toNat tags [] hnd (by simp) (by simp [hlen]) (by simp)
  rw [List.map_map]
  have hc : (Prod.fst ∘ fun e : Outcome × Option Int => (some e.1, e.2))
      = (fun o : Outcome => some o) ∘ Prod.fst := rfl
  rw [hc, ← List.map_map, h]
  simp

/-- Instance of `no_eviction_before_full`: the tags -1, 0, 7 in set 1 of a
cache with `E = 2`. -/
theorem no_eviction_before_full_witness :
    (1 : Int) ≤ 2 ∧ init_state 1 2 1 = some sampleInit ∧ sampleInit.cache.InRange 1 ∧
    [(-1 : Int), 0, 7].Nodup ∧ [(-1 : Int), 0, 7].length = (2 : Int).toNat + 1 ∧
    ∃ es, access_trace 1 sampleInit [-1, 0, 7] = some es ∧
      es.map Prod.fst =
        List.replicate (2 : Int).toNat (some Outcome.MissNoEviction) ++
          [some Outcome.MissWithEviction] :=
  ⟨by decide, by decide, by decide, by decide, by decide,
    no_eviction_before_full 1 2 1 1 [-1, 0, 7] sampleInit (by decide) (by decide) (by decide)
      (by decide) (by decide)⟩

/-! ## Tag uniqueness -/

/-- C10: in every state reachable from `init_cache(s, E, b)` with `E ≥ 1` by
calls of `update_info` with in-range set indices, no set has two distinct
valid lines with the same tag. -/
theorem tag_unique (s E b : Int) (st : State) (hE : 1 ≤ E) (hreach : Reachable s E b st)
    (z : Int) (hz : st.cache.InRange z) (i j : Nat) (hij : i ≠ j)
    (hvi : (lineAt (st.cache.row z) i).valid ≠ 0) (hvj : (lineAt (st.cache.row z) j).valid ≠ 0) :
    (lineAt (st.cache.row z) i).tag ≠ (lineAt (st.cache.row z) j).tag := by
  intro htag
  apply hij
  obtain ⟨_, _, hrows⟩ := reachable_inv hE hreach
  obtain ⟨idx, hR⟩ := hrows z hz
  have hmem : ∀ k, (lineAt (st.cache.row z) k).valid ≠ 0 → k ∈ idx := by
    intro k hv
    rw [hR.mem]
    by_contra hge
    rw [hR.fresh k (by omega)] at hv
    exact hv rfl
  exact List.inj_on_of_nodup_map hR.tags (hmem i hvi) (hmem j hvj) htag

/-- Instance of `tag_unique`: in `sampleTwo`, reached by two accesses, the
two valid lines of set 0 hold different tags. -/
theorem tag_unique_witness :
    (1 : Int) ≤ 2 ∧ Reachable 1 2 1 sampleTwo ∧ sampleTwo.cache.InRange 0 ∧
    (lineAt (sampleTwo.cache.row 0) 0).valid ≠ 0 ∧
    (lineAt (sampleTwo.cache.row 0) 1).valid ≠ 0 ∧
    (lineAt (sampleTwo.cache.row 0) 0).tag ≠ (lineAt (sampleTwo.cache.row 0) 1).tag := by
  have h0 : Reachable 1 2 1 sampleInit := Reachable.init (by decide)
  have h1 : Reachable 1 2 1 (step sampleInit 5 0) :=
    Reachable.access 5 0 h0 (by decide) (by decide)
  have hr : Reachable 1 2 1 sampleTwo := Reachable.access 6 0 h1 (by decide) (by decide)
  exact ⟨by decide, hr, by decide, by decide, by decide,
    tag_unique 1 2 1 sampleTwo (by decide) hr 0 (by decide) 0 1 (by decide) (by decide)
      (by decide)⟩

/-! ## The two-way example -/

theorem row_of_length_two {row : List CacheLine} (h : row.length = 2) :
    ∃ l0 l1, row = [l0, l1] := by
  match row, h with
  | [l0, l1], _ => exact ⟨l0, l1, rfl⟩

/-- C5: in a well-formed cache with `E = 2`, on a set whose lines are all
invalid, the accesses A, B, A, C with pairwise distinct tags all return; the
access to C is a miss with eviction, the evicted tag is B, and the line that
held B (line 1) receives C: afterwards A and C are resident and B is not. -/
theorem lru_two_way (st : State) (z A B C : Int) (hwf : st.cache.WF)
    (hz : st.cache.InRange z) (hE : st.cache.E = 2)
    (hempty : ∀ l ∈ st.cache.row z, l.valid = 0)
    (hAB : A ≠ B) (hAC : A ≠ C) (hBC : B ≠ C) :
    ∃ st1 st2 st3 st4, update_info st A z = some st1 ∧ update_info st1 B z = some st2 ∧
      update_info st2 A z = some st3 ∧ update_info st3 C z = some st4 ∧
      outcome st3 st4 = some Outcome.MissWithEviction ∧
      evicted (st3.cache.row z) (st4.cache.row z) = some B ∧
      st3.cache.row z = [{ valid := 1, tag := A, time_stamp := 0 },
                         { valid := 1, tag := B, time_stamp := 1 }] ∧
      st4.cache.row z = [{ valid := 1, tag := A, time_stamp := 1 },
                         { valid := 1, tag := C, time_stamp := 0 }] ∧
      Resident (st4.cache.row z) A ∧ Resident (st4.cache.row z) C ∧
      ¬ Resident (st4.cache.row z) B := by
  have hE1 : 1 ≤ st.cache.E := by omega
  have hlen : (st.cache.row z).length = 2 := by
    have := (row_of_inRange hwf hz).2; omega
  obtain ⟨l0, l1, hrow⟩ := row_of_length_two hlen
  have hv0 : l0.valid = 0 := hempty l0 (by rw [hrow]; simp)
  have hv1 : l1.valid = 0 := hempty l1 (by rw [hrow]; simp)
  have hBA : B ≠ A := fun h => hAB h.symm
  have hCA : C ≠ A := fun h => hAC h.symm
  have hCB : C ≠ B := fun h => hBC h.symm
  have w1 := step_WF hwf hz A
  have w2 := step_WF w1 hz B
  have w3 := step_WF w2 hz A
  have r1 : (step st A z).cache.row z = [{ valid := 1, tag := A, time_stamp := 0 }, l1] := by
    rw [step_row_same hwf hz, hrow]
    simp [rowStep, slot, rowUpdate, holds, isEmpty, List.findIdx_cons, bump, hv0, hv1]
  have r2 : (step (step st A z) B z).cache.row z =
      [{ valid := 1, tag := A, time_stamp := 1 }, { valid := 1, tag := B, time_stamp := 0 }] := by
    rw [step_row_same w1 hz, r1]
    simp [rowStep, slot, rowUpdate, holds, isEmpty, List.findIdx_cons, bump, hv1, hAB]
  have r3 : (step (step (step st A z) B z) A z).cache.row z =
      [{ valid := 1, tag := A, time_stamp := 0 }, { valid := 1, tag := B, time_stamp := 1 }] := by
    rw [step_row_same w2 hz, r2]
    simp [rowStep, slot, rowUpdate, holds, isEmpty, List.findIdx_cons, bump]
  have r4 : (step (step (step (step st A z) B z) A z) C z).cache.row z =
      [{ valid := 1, tag := A, time_stamp := 1 }, { valid := 1, tag := C, time_stamp := 0 }] := by
    rw [step_row_same w3 hz, r3]
    simp [rowStep, slot, rowUpdate, holds, isEmpty, List.findIdx_cons, bump, rowLru, hAC, hBC]
  refine ⟨_, _, _, _, update_info_eq hwf hz hE1 A, update_info_eq w1 hz hE1 B,
    update_info_eq w2 hz hE1 A, update_info_eq w3 hz hE1 C, ?_, ?_, r3, r4, ?_, ?_, ?_⟩
  · rw [outcome_step, r3]
    simp [rowOutcome, Resident, HasInvalid, hAC, hBC]
  · rw [r3, r4]
    simp [evicted, residents, List.find?_cons, hBA, hBC, hAC, hCA, hCB]
  · rw [r4]; simp [Resident]
  · rw [r4]; simp [Resident]
  · rw [r4]; simp [Resident, hAB, hBC, hBA, hCB]

/-- Instance of `lru_two_way`: tags 1, 2, 3 in set 1 of `sampleState`. -/
theorem lru_two_way_witness :
    sampleState.cache.WF ∧ sampleState.cache.InRange 1 ∧ sampleState.cache.E = 2 ∧
    (∀ l ∈ sampleState.cache.row 1, l.valid = 0) ∧
    ∃ st1 st2 st3 st4, update_info sampleState 1 1 = some st1 ∧
      update_info st1 2 1 = some st2 ∧ update_info st2 1 1 = some st3 ∧
      update_info st3 3 1 = some st4 ∧
      outcome st3 st4 = some Outcome.MissWithEviction ∧
      evicted (st3.cache.row 1) (st4.cache.row 1) = some 2 ∧
      st3.cache.row 1 = [{ valid := 1, tag := 1, time_stamp := 0 },
                         { valid := 1, tag := 2, time_stamp := 1 }] ∧
      st4.cache.row 1 = [{ valid := 1, tag := 1, time_stamp := 1 },
                         { valid := 1, tag := 3, time_stamp := 0 }] ∧
      Resident (st4.cache.row 1) 1 ∧ Resident (st4.cache.row 1) 3 ∧
      ¬ Resident (st4.cache.row 1) 2 :=
  ⟨by decide, by decide, by decide, by decide,
    lru_two_way sampleState 1 1 2 3 (by decide) (by decide) (by decide) (by decide)
      (by decide) (by decide) (by decide)⟩

/-! ## Geometry -/

/-- C11 as amended: for `0 ≤ s ≤ 30`, `E ≥ 1` and `0 ≤ b ≤ 30`,
`init_cache(s, E, b)` builds a cache with exactly `2^s` sets, each with
exactly `E` lines, all invalid; and on every well-formed cache with `E ≥ 1`
a call of `update_info` with an in-range set index returns and leaves the
number of sets and the number of lines of every set as they were. -/
theorem geometry (s E b : Int) (hs : 0 ≤ s) (hs30 : s ≤ 30) (hE : 1 ≤ E) (hb : 0 ≤ b)
    (hb30 : b ≤ 30) :
    (∃ c, init_cache s E b = some c ∧ c.line.length = 2 ^ s.toNat ∧
      ∀ row ∈ c.line, (row.length : Int) = E ∧ ∀ l ∈ row, l.valid = 0) ∧
    (∀ (st : State) (op_t op_s : Int), st.cache.WF → 1 ≤ st.cache.E →
      st.cache.InRange op_s →
      ∃ st', update_info st op_t op_s = some st' ∧
        st'.cache.line.map List.length = st.cache.line.map List.length) := by
  constructor
  · refine ⟨_, init_cache_of_le E hs hs30 hb hb30, ?_, ?_⟩
    · simp only [List.length_replicate]
      have : ((2 : Int) ^ s.toNat).toNat = 2 ^ s.toNat := by
        have h : ((2 : Int) ^ s.toNat) = ((2 ^ s.toNat : Nat) : Int) := by push_cast; rfl
        rw [h, Int.toNat_ofNat]
      exact this
    · intro row hrow
      rw [List.eq_of_mem_replicate hrow]
      refine ⟨by simp; omega, ?_⟩
      intro l hl
      rw [List.eq_of_mem_replicate hl]
      rfl
  · intro st t z hwf hE1 hz
    exact ⟨step st t z, update_info_eq hwf hz hE1 t, step_lengths hwf hz t⟩

/-- Instance of `geometry`: `s = 1`, `E = 2`, `b = 1` gives 2 sets of 2
invalid lines, and an access to set 0 of `sampleState` keeps the row lengths. -/
theorem geometry_witness :
    (0 : Int) ≤ 1 ∧ (1 : Int) ≤ 30 ∧ (1 : Int) ≤ 2 ∧
    (∃ c, init_cache 1 2 1 = some c ∧ c.line.length = 2 ^ (1 : Int).toNat ∧
      ∀ row ∈ c.line, (row.length : Int) = 2 ∧ ∀ l ∈ row, l.valid = 0) ∧
    ∃ st', update_info sampleState 7 0 = some st' ∧
      st'.cache.line.map List.length = sampleState.cache.line.map List.length := by
  obtain ⟨h1, h2⟩ := geometry 1 2 1 (by decide) (by decide) (by decide) (by decide) (by decide)
  exact ⟨by decide, by decide, by decide, h1,
    h2 sampleState 7 0 (by decide) (by decide) (by decide)⟩

/-- C11 (counterexample): for `s = 31` the expression `1 << s` is not an
`int`, and `init_cache(31, 1, 0)` builds no cache with `2^31` sets. -/
theorem geometry_s_31 :
    ¬ ∃ c, init_cache 31 1 0 = some c ∧ c.line.length = 2 ^ (31 : Int).toNat := by
  rintro ⟨c, h, _⟩
  have : init_cache 31 1 0 = none := by decide
  rw [this] at h
  cases h

/-! ## The single-set geometry -/

/-- With `s = 0` the decoding of `get_trace` is undefined for every address
and every `b`: the mask is `-1U >> 32`. -/
theorem decode_zero_none (b : Int) (addr : Nat) : decode 0 b addr = none := by
  unfold decode
  have h : shr_u32 (2 ^ 32 - 1) (8 * 4 - 0) = none := by decide
  rw [h]
  cases shr_u32 addr (0 + b) <;> cases shr_u32 addr b <;> rfl

/-- C12 (failing case): `init_cache(0, 1, 0)` allocates one set, but the set
index that `get_trace` computes for address 1 with `s = 0`, `b = 0` is not 0:
its mask is `-1U >> 32`, which has no defined value. -/
theorem single_set_decode :
    (init_cache 0 1 0).map (fun c => c.line.length) = some 1 ∧ decode 0 0 1 = none := by
  decide

/-! ## Geometry validation -/

theorem update_info_no_lines (st : State) (t z : Int) (hE : st.cache.E ≤ 0)
    (hrows : ∀ row ∈ st.cache.line, row = []) : update_info st t z = none := by
  have hE0 : st.cache.E.toNat = 0 := by omega
  have hread : readLine st.cache z 0 = none := by
    unfold readLine
    split
    · cases hrow : st.cache.line[z.toNat]? with
      | none => rfl
      | some row =>
        have := hrows row (List.getElem?_mem hrow)
        subst this
        rfl
    · rfl
  have hupd : update st.cache 0 z t = none := by
    simp [update, modifyLine, hread]
  simp [update_info, get_index, get_index_loop, get_emptyline, get_emptyline_loop, find_lru,
    find_lru_loop, hE0, hupd]

/-- C13 as amended: the code validates nothing. For `s < 0` or `b < 0` the
shift in `init_cache` is undefined (`none`; no error is reported). For
`E ≤ 0` with `0 ≤ s ≤ 30` and `0 ≤ b ≤ 30`, `init_cache(s, E, b)` returns a
cache of `2^s` sets without lines, the counters are 0, the run over an empty
trace ends in that state, and every call of `update_info` on it is undefined
(it writes line 0 of a set that has no lines). -/
theorem no_validation (s E b : Int) :
    ((s < 0 ∨ b < 0) → init_cache s E b = none) ∧
    (E ≤ 0 → 0 ≤ s → s ≤ 30 → 0 ≤ b → b ≤ 30 →
      ∃ st, init_state s E b = some st ∧ st.cache.line = List.replicate (2 ^ s.toNat) [] ∧
        st.cache.E = E ∧
        st.hit_count = 0 ∧ st.miss_count = 0 ∧ st.eviction_count = 0 ∧
        run s E b [] = some st ∧
        ∀ op_t op_s, update_info st op_t op_s = none) := by
  constructor
  · intro h
    unfold init_cache shl_one
    by_cases hs : 0 ≤ s ∧ s ≤ 30 <;> by_cases hb : 0 ≤ b ∧ b ≤ 30 <;> simp [hs, hb]
    omega
  · intro hE hs hs30 hb hb30
    have hc := init_cache_of_le E hs hs30 hb hb30
    have hE0 : E.toNat = 0 := by omega
    have hpow : ((2 : Int) ^ s.toNat).toNat = 2 ^ s.toNat := by
      have h : ((2 : Int) ^ s.toNat) = ((2 ^ s.toNat : Nat) : Int) := by push_cast; rfl
      rw [h, Int.toNat_ofNat]
    refine ⟨_, by rw [init_state, hc]; rfl, ?_, rfl, rfl, rfl, rfl, ?_, ?_⟩
    · simp only [hE0, hpow, List.replicate_zero]
    · simp [run, init_state, hc, get_trace]
    · intro t z
      apply update_info_no_lines
      · exact hE
      · intro row hrow
        simp only [hE0, List.replicate_zero] at hrow
        exact List.eq_of_mem_replicate hrow

/-- Instance of `no_validation`: `init_cache(1, 0, 1)` returns two sets
without lines, and an access to set 0 is undefined. -/
theorem no_validation_witness :
    (0 : Int) ≤ 0 ∧ (0 : Int) ≤ 1 ∧ (1 : Int) ≤ 30 ∧
    ∃ st, init_state 1 0 1 = some st ∧ st.cache.line = List.replicate (2 ^ (1 : Int).toNat) [] ∧
      st.cache.E = 0 ∧
      st.hit_count = 0 ∧ st.miss_count = 0 ∧ st.eviction_count = 0 ∧
      run 1 0 1 [] = some st ∧
      ∀ op_t op_s, update_info st op_t op_s = none :=
  ⟨by decide, by decide, by decide,
    (no_validation 1 0 1).2 (by decide) (by decide) (by decide) (by decide) (by decide)⟩

/-- C13 (counterexample): `init_cache(1, 0, 1)` does not fail; it returns a
cache with two sets without lines. -/
theorem zero_lines_accepted :
    init_cache 1 0 1 = some { S := 2, E := 0, B := 2, line := [[], []] } := by
  decide

/-! ## The recency update -/

/-- C14: on a well-formed cache, for an in-range set `Z` and a line index
`L` in `[0, E)`, `update(L, Z, tag)` returns and leaves line `L` with
`time_stamp` 0; every other line of `Z` whose valid flag was 1 has its
`time_stamp` increased by exactly 1, and every other line whose valid flag
was 0 keeps its `time_stamp`. -/
theorem update_ages (c : Cache) (L Z tag : Int) (hwf : c.WF) (hz : c.InRange Z)
    (hL0 : 0 ≤ L) (hL : L < c.E) :
    ∃ c', update c L Z tag = some c' ∧
      (lineAt (c'.row Z) L.toNat).time_stamp = 0 ∧
      ∀ i : Nat, (i : Int) < c.E → (i : Int) ≠ L →
        ((lineAt (c.row Z) i).valid = 1 →
          (lineAt (c'.row Z) i).time_stamp = (lineAt (c.row Z) i).time_stamp + 1) ∧
        ((lineAt (c.row Z) i).valid = 0 →
          (lineAt (c'.row Z) i).time_stamp = (lineAt (c.row Z) i).time_stamp) := by
  obtain ⟨hrow, hlen⟩ := row_of_inRange hwf hz
  have hk : L.toNat < (c.row Z).length := by omega
  have hLk : L = (L.toNat : Int) := (Int.toNat_of_nonneg hL0).symm
  have hup := update_eq hz.1 hrow (by omega) hk tag
  rw [← hLk] at hup
  refine ⟨_, hup, ?_, ?_⟩
  · rw [setRow_row_same hwf hz, lineAt_rowUpdate hk, if_pos rfl]
  · intro i _ hiL
    have hne : i ≠ L.toNat := fun h => hiL (by rw [h]; exact hLk.symm)
    rw [setRow_row_same hwf hz, lineAt_rowUpdate hk, if_neg hne]
    constructor
    · intro hv; simp [bump, hv]
    · intro hv; simp [bump, hv]

/-- Instance of `update_ages`: `update(1, 0, 9)` on the cache of
`sampleState`, whose set 0 has a valid line 0 of age 0. -/
theorem update_ages_witness :
    sampleState.cache.WF ∧ sampleState.cache.InRange 0 ∧ (0 : Int) ≤ 1 ∧
    (1 : Int) < sampleState.cache.E ∧
    ∃ c', update sampleState.cache 1 0 9 = some c' ∧
      (lineAt (c'.row 0) 1).time_stamp = 0 ∧ (lineAt (c'.row 0) 0).time_stamp = 1 := by
  obtain ⟨c', h1, h2, h3⟩ :=
    update_ages sampleState.cache 1 0 9 (by decide) (by decide) (by decide) (by decide)
  exact ⟨by decide, by decide, by decide, by decide, c', h1, h2,
    (h3 0 (by decide) (by decide)).1 (by decide)⟩

/-! ## Victim selection -/

/-- C15: on a well-formed cache with `E ≥ 1`, for an in-range set whose lines
all have a non-negative `time_stamp`, `find_lru` returns an index `i` in
`[0, E)` such that no line of the set is older than line `i` and no line with
a lower index has the same age. -/
theorem find_lru_max (c : Cache) (op_s : Int) (hwf : c.WF) (hz : c.InRange op_s)
    (hE : 1 ≤ c.E) (hnn : ∀ l ∈ c.row op_s, 0 ≤ l.time_stamp) :
    ∃ i : Nat, find_lru c op_s = some (i : Int) ∧ (i : Int) < c.E ∧
      (∀ j : Nat, (j : Int) < c.E → ageAt (c.row op_s) j ≤ ageAt (c.row op_s) i) ∧
      (∀ j : Nat, j < i → ageAt (c.row op_s) j ≠ ageAt (c.row op_s) i) := by
  obtain ⟨_, hlen⟩ := row_of_inRange hwf hz
  have h1 : 1 ≤ (c.row op_s).length := by omega
  have hnn2 : ∀ j, j < (c.row op_s).length → 0 ≤ ageAt (c.row op_s) j := fun j hj =>
    hnn _ (lineAt_mem hj)
  obtain ⟨a, b, d⟩ := rowLru_max h1 hnn2
  refine ⟨(rowLru (c.row op_s) 0 0 0).toNat, ?_, by omega, ?_, ?_⟩
  · rw [find_lru_eq hwf hz, Int.toNat_of_nonneg (rowLru_lt h1).1]
  · intro j hj
    exact b j (by omega)
  · intro j hj
    exact ne_of_lt (d j hj)

/-- Instance of `find_lru_max`: in set 0 of `sampleTwo` the ages are 1 and 0,
and `find_lru` returns line 0. -/
theorem find_lru_max_witness :
    sampleTwo.cache.WF ∧ sampleTwo.cache.InRange 0 ∧ 1 ≤ sampleTwo.cache.E ∧
    (∀ l ∈ sampleTwo.cache.row 0, 0 ≤ l.time_stamp) ∧
    find_lru sampleTwo.cache 0 = some 0 ∧
    ∃ i : Nat, find_lru sampleTwo.cache 0 = some (i : Int) ∧ (i : Int) < sampleTwo.cache.E ∧
      (∀ j : Nat, (j : Int) < sampleTwo.cache.E →
        ageAt (sampleTwo.cache.row 0) j ≤ ageAt (sampleTwo.cache.row 0) i) ∧
      (∀ j : Nat, j < i → ageAt (sampleTwo.cache.row 0) j ≠ ageAt (sampleTwo.cache.row 0) i) :=
  ⟨by decide, by decide, by decide, by decide, by decide,
    find_lru_max sampleTwo.cache 0 (by decide) (by decide) (by decide) (by decide)⟩

/-! ## Placement on a miss -/

theorem slot_free {row : List CacheLine} {t : Int} (h : ¬ Resident row t) (hf : HasInvalid row) :
    (lineAt row (slot row t)).valid = 0 ∧ ∀ j, j < slot row t → (lineAt row j).valid ≠ 0 := by
  have h1 := mt findIdx_holds_lt.mp h
  have h2 := findIdx_isEmpty_lt.mpr hf
  have hs : slot row t = row.findIdx isEmpty := by simp [slot, h1, h2]
  rw [hs]
  constructor
  · have hp : isEmpty (row[row.findIdx isEmpty]) = true := List.findIdx_getElem
    rw [lineAt_of_lt h2]
    simpa [isEmpty] using hp
  · intro j hj
    have hjl : j < row.length := by omega
    have hp := List.not_of_lt_findIdx hj
    rw [lineAt_of_lt hjl]
    simpa [isEmpty] using hp

theorem slot_full {row : List CacheLine} {t : Int} (h : ¬ Resident row t)
    (hf : ¬ HasInvalid row) (h1 : 1 ≤ row.length) :
    rowLru row 0 0 0 = (slot row t : Int) := by
  have e1 := mt findIdx_holds_lt.mp h
  have e2 := mt findIdx_isEmpty_lt.mp hf
  simp only [slot, e1, e2, if_false]
  exact (Int.toNat_of_nonneg (rowLru_lt h1).1).symm

/-- C16: on a well-formed cache with `E ≥ 1` and an in-range set index, when
no valid line of the set holds the tag, `update_info(tag, set)` returns and
the tag goes to a line `k` of the set: the lowest-index line with valid
flag 0 if the set has one, and otherwise the line that `find_lru` returns.
After the call line `k` has valid flag 1 and holds the tag, and every other
line of the set has the valid flag and the tag it had before. -/
theorem miss_placement (st : State) (op_t op_s : Int) (hwf : st.cache.WF)
    (hz : st.cache.InRange op_s) (hE : 1 ≤ st.cache.E)
    (hmiss : ¬ Resident (st.cache.row op_s) op_t) :
    ∃ (st' : State) (k : Nat), update_info st op_t op_s = some st' ∧ (k : Int) < st.cache.E ∧
      (HasInvalid (st.cache.row op_s) →
        (lineAt (st.cache.row op_s) k).valid = 0 ∧
        ∀ j, j < k → (lineAt (st.cache.row op_s) j).valid ≠ 0) ∧
      (¬ HasInvalid (st.cache.row op_s) → find_lru st.cache op_s = some (k : Int)) ∧
      (lineAt (st'.cache.row op_s) k).valid = 1 ∧
      (lineAt (st'.cache.row op_s) k).tag = op_t ∧
      ∀ i, i ≠ k →
        (lineAt (st'.cache.row op_s) i).valid = (lineAt (st.cache.row op_s) i).valid ∧
        (lineAt (st'.cache.row op_s) i).tag = (lineAt (st.cache.row op_s) i).tag := by
  have h1 := row_length hwf hz hE
  have hk := slot_lt h1 op_t
  have hlen := (row_of_inRange hwf hz).2
  refine ⟨step st op_t op_s, slot (st.cache.row op_s) op_t, update_info_eq hwf hz hE op_t,
    by omega, fun hf => slot_free hmiss hf, ?_, ?_, ?_, ?_⟩
  · intro hf
    rw [find_lru_eq hwf hz, slot_full hmiss hf h1]
  · rw [step_row_same hwf hz, rowStep, lineAt_rowUpdate hk, if_pos rfl]
  · rw [step_row_same hwf hz, rowStep, lineAt_rowUpdate hk, if_pos rfl]
  · intro i hi
    rw [step_row_same hwf hz, rowStep, lineAt_rowUpdate hk, if_neg hi]
    exact ⟨bump_valid _, bump_tag _⟩

/-- Instance of `miss_placement`: tag 7 misses in set 0 of `sampleState` and
goes to line 1, the first invalid line. -/
theorem miss_placement_witness :
    sampleState.cache.WF ∧ sampleState.cache.InRange 0 ∧ 1 ≤ sampleState.cache.E ∧
    ¬ Resident (sampleState.cache.row 0) 7 ∧ HasInvalid (sampleState.cache.row 0) ∧
    ∃ (st' : State) (k : Nat), update_info sampleState 7 0 = some st' ∧
      (lineAt (sampleState.cache.row 0) k).valid = 0 ∧
      (∀ j, j < k → (lineAt (sampleState.cache.row 0) j).valid ≠ 0) ∧
      (lineAt (st'.cache.row 0) k).valid = 1 ∧ (lineAt (st'.cache.row 0) k).tag = 7 := by
  obtain ⟨st', k, h1, _, h3, _, h5, h6, _⟩ :=
    miss_placement sampleState 7 0 (by decide) (by decide) (by decide) (by decide)
  have hf : HasInvalid (sampleState.cache.row 0) := by decide
  exact ⟨by decide, by decide, by decide, by decide, hf, st', k, h1, (h3 hf).1, (h3 hf).2, h5, h6⟩

/-! ## The frame of a hit -/

/-- C17: on a well-formed cache, when some valid line of the in-range set
holds the tag, `update_info(tag, set)` returns, counts a hit, and every line of
the set keeps its tag and stays valid or invalid as it was; a line whose
valid flag is 0 or 1 keeps the flag itself. Ages are the only fields of the
set that change. -/
theorem hit_frame (st : State) (op_t op_s : Int) (hwf : st.cache.WF)
    (hz : st.cache.InRange op_s) (hhit : Resident (st.cache.row op_s) op_t) :
    ∃ st', update_info st op_t op_s = some st' ∧ st'.hit_count = st.hit_count + 1 ∧
      (st'.cache.row op_s).length = (st.cache.row op_s).length ∧
      ∀ i,
        (lineAt (st'.cache.row op_s) i).tag = (lineAt (st.cache.row op_s) i).tag ∧
        ((lineAt (st'.cache.row op_s) i).valid ≠ 0 ↔ (lineAt (st.cache.row op_s) i).valid ≠ 0) ∧
        ((lineAt (st.cache.row op_s) i).valid = 0 ∨ (lineAt (st.cache.row op_s) i).valid = 1 →
          (lineAt (st'.cache.row op_s) i).valid = (lineAt (st.cache.row op_s) i).valid) := by
  have hlen := (row_of_inRange hwf hz).2
  have h1 : 1 ≤ (st.cache.row op_s).length := by
    obtain ⟨l, hl, _⟩ := hhit
    exact List.length_pos_of_mem hl
  have hE : 1 ≤ st.cache.E := by omega
  have hk := slot_lt h1 op_t
  have hlt := findIdx_holds_lt.mpr hhit
  have hs : slot (st.cache.row op_s) op_t = (st.cache.row op_s).findIdx (holds op_t) := by
    simp [slot, hlt]
  have hp : holds op_t (lineAt (st.cache.row op_s) (slot (st.cache.row op_s) op_t)) = true := by
    rw [hs, lineAt_of_lt hlt]; exact List.findIdx_getElem
  simp only [holds, decide_eq_true_eq] at hp
  refine ⟨step st op_t op_s, update_info_eq hwf hz hE op_t, (step_hit hhit).1, ?_, ?_⟩
  · rw [step_row_same hwf hz, rowStep_length]
  · intro i
    rw [step_row_same hwf hz, rowStep, lineAt_rowUpdate hk]
    by_cases hi : i = slot (st.cache.row op_s) op_t
    · rw [if_pos hi, hi]
      refine ⟨hp.2.symm, ?_, ?_⟩
      · simp [hp.1]
      · intro h
        rcases h with h | h
        · exact absurd h hp.1
        · exact h.symm
    · rw [if_neg hi]
      exact ⟨bump_tag _, by rw [bump_valid], fun _ => bump_valid _⟩

/-- Instance of `hit_frame`: tag 5 hits in set 0 of `sampleState`. -/
theorem hit_frame_witness :
    sampleState.cache.WF ∧ sampleState.cache.InRange 0 ∧
    Resident (sampleState.cache.row 0) 5 ∧
    ∃ st', update_info sampleState 5 0 = some st' ∧ st'.hit_count = 1 ∧
      (lineAt (st'.cache.row 0) 0).tag = 5 ∧ (lineAt (st'.cache.row 0) 0).valid = 1 ∧
      (lineAt (st'.cache.row 0) 1).valid = 0 := by
  obtain ⟨st', h1, h2, _, h4⟩ := hit_frame sampleState 5 0 (by decide) (by decide) (by decide)
  exact ⟨by decide, by decide, by decide, st', h1, h2, (h4 0).1, (h4 0).2.2 (by decide),
    (h4 1).2.2 (by decide)⟩

/-! ## The frame of an access -/

/-- C19: on a well-formed cache with `E ≥ 1`, a call `update_info(tag, Z)`
with `Z` in range returns and leaves every set other than `Z` as it was,
line by line (valid flag, tag and age). -/
theorem other_sets_unchanged (st : State) (op_t Z : Int) (hwf : st.cache.WF)
    (hz : st.cache.InRange Z) (hE : 1 ≤ st.cache.E) :
    ∃ st', update_info st op_t Z = some st' ∧
      ∀ n : Nat, n ≠ Z.toNat → st'.cache.line[n]? = st.cache.line[n]? :=
  ⟨step st op_t Z, update_info_eq hwf hz hE op_t, fun _ hn => step_line_other st op_t Z hn⟩

/-- Instance of `other_sets_unchanged`: an access to set 1 of `sampleState`
leaves set 0 as it was. -/
theorem other_sets_unchanged_witness :
    sampleState.cache.WF ∧ sampleState.cache.InRange 1 ∧ 1 ≤ sampleState.cache.E ∧
    ∃ st', update_info sampleState 3 1 = some st' ∧
      st'.cache.line[0]? = some [{ valid := 1, tag := 5, time_stamp := 0 }, init_line] := by
  obtain ⟨st', h1, h2⟩ :=
    other_sets_unchanged sampleState 3 1 (by decide) (by decide) (by decide)
  exact ⟨by decide, by decide, by decide, st', h1, (h2 0 (by decide)).trans (by decide)⟩

/-! ## No age ties -/

/-- C18: in every state reachable from `init_cache(s, E, b)` with `E ≥ 1` by
calls of `update_info` with in-range set indices, two distinct valid lines of
a set never have the same age; and when a set has no invalid line (the only
case in which `update_info` evicts), the line that `find_lru` returns is
strictly older than every other line of the set, so the lowest-index
tie-break does not decide the victim. -/
theorem no_age_ties (s E b : Int) (st : State) (hE : 1 ≤ E) (hreach : Reachable s E b st)
    (z : Int) (hz : st.cache.InRange z) :
    (∀ i j : Nat, i ≠ j → (lineAt (st.cache.row z) i).valid ≠ 0 →
      (lineAt (st.cache.row z) j).valid ≠ 0 →
      ageAt (st.cache.row z) i ≠ ageAt (st.cache.row z) j) ∧
    (¬ HasInvalid (st.cache.row z) →
      ∃ k : Nat, find_lru st.cache z = some (k : Int) ∧ (k : Int) < st.cache.E ∧
        ∀ j : Nat, (j : Int) < st.cache.E → j ≠ k →
          ageAt (st.cache.row z) j < ageAt (st.cache.row z) k) := by
  obtain ⟨hwf, hE1, hrows⟩ := reachable_inv hE hreach
  obtain ⟨idx, hR⟩ := hrows z hz
  refine ⟨fun i j hij hvi hvj => recency_ages_ne hR hij hvi hvj, ?_⟩
  intro hf
  have hlen := (row_of_inRange hwf hz).2
  have h1 := row_length hwf hz hE1
  have hfull := recency_full hR hf
  have hval : ∀ j, j < (st.cache.row z).length → (lineAt (st.cache.row z) j).valid ≠ 0 := by
    intro j hj
    rw [hR.valid j (by omega)]
    decide
  have hnn : ∀ j, j < (st.cache.row z).length → 0 ≤ ageAt (st.cache.row z) j := fun j hj =>
    hR.nonneg j ((hR.mem j).mpr (by omega))
  obtain ⟨a, b2, _⟩ := rowLru_max h1 hnn
  refine ⟨(rowLru (st.cache.row z) 0 0 0).toNat, ?_, by omega, ?_⟩
  · rw [find_lru_eq hwf hz, Int.toNat_of_nonneg (rowLru_lt h1).1]
  · intro j hj hjk
    have hjl : j < (st.cache.row z).length := by omega
    have hle := b2 j hjl
    have hne := recency_ages_ne hR hjk (hval j hjl) (hval _ a)
    omega

/-- Instance of `no_age_ties`: in `sampleTwo` the two valid lines of set 0
have different ages, and `find_lru` returns line 0, which is older than
line 1. -/
theorem no_age_ties_witness :
    (1 : Int) ≤ 2 ∧ Reachable 1 2 1 sampleTwo ∧ sampleTwo.cache.InRange 0 ∧
    ¬ HasInvalid (sampleTwo.cache.row 0) ∧
    ageAt (sampleTwo.cache.row 0) 0 ≠ ageAt (sampleTwo.cache.row 0) 1 ∧
    ∃ k : Nat, find_lru sampleTwo.cache 0 = some (k : Int) ∧ (k : Int) < sampleTwo.cache.E ∧
      ∀ j : Nat, (j : Int) < sampleTwo.cache.E → j ≠ k →
        ageAt (sampleTwo.cache.row 0) j < ageAt (sampleTwo.cache.row 0) k := by
  obtain ⟨h1, h2⟩ := no_age_ties 1 2 1 sampleTwo (by decide) sampleTwo_reachable 0 (by decide)
  exact ⟨by decide, sampleTwo_reachable, by decide, by decide,
    h1 0 1 (by decide) (by decide) (by decide), h2 (by decide)⟩

/-! ## Fill order -/

/-- C20: in every state reachable from `init_cache(s, E, b)` with `E ≥ 1` by
calls of `update_info` with in-range set indices, in every set the valid
lines form a prefix of the line indices, every invalid line still has tag -1
and age 0, and a further call of `update_info` with an in-range set index
leaves every valid line valid. -/
theorem fill_order (s E b : Int) (st : State) (hE : 1 ≤ E) (hreach : Reachable s E b st)
    (z : Int) (hz : st.cache.InRange z) :
    (∀ i j : Nat, j < i → (lineAt (st.cache.row z) i).valid ≠ 0 →
      (lineAt (st.cache.row z) j).valid ≠ 0) ∧
    (∀ i : Nat, (i : Int) < st.cache.E → (lineAt (st.cache.row z) i).valid = 0 →
      (lineAt (st.cache.row z) i).tag = -1 ∧ (lineAt (st.cache.row z) i).time_stamp = 0) ∧
    (∀ (op_t op_s : Int) (st' : State), st.cache.InRange op_s →
      update_info st op_t op_s = some st' →
      ∀ i : Nat, (lineAt (st.cache.row z) i).valid ≠ 0 →
        (lineAt (st'.cache.row z) i).valid ≠ 0) := by
  obtain ⟨hwf, hE1, hrows⟩ := reachable_inv hE hreach
  obtain ⟨idx, hR⟩ := hrows z hz
  refine ⟨?_, ?_, ?_⟩
  · intro i j hji hvi
    have hi := (hR.mem i).mp (recency_valid_mem hR hvi)
    rw [hR.valid j (by omega)]
    decide
  · intro i _ hv
    have hge : idx.length ≤ i := by
      by_contra hlt
      rw [hR.valid i (by omega)] at hv
      exact absurd hv (by decide)
    rw [hR.fresh i hge]
    exact ⟨rfl, rfl⟩
  · intro t z2 st' hz2 hup i hv
    rw [update_info_eq hwf hz2 hE1 t] at hup
    cases hup
    by_cases hzz : z = z2
    · subst hzz
      have hk := slot_lt (row_length hwf hz hE1) t
      rw [step_row_same hwf hz, rowStep, lineAt_rowUpdate hk]
      split
      · simp
      · rw [bump_valid]; exact hv
    · rw [step_row_other hz2 hz hzz]
      exact hv

/-- Instance of `fill_order`: in set 1 of `sampleTwo` line 0 is invalid and
still has tag -1 and age 0; in set 0 line 1 is valid, so line 0 is, and line 1
stays valid when tag 9 is accessed in set 0. -/
theorem fill_order_witness :
    (1 : Int) ≤ 2 ∧ Reachable 1 2 1 sampleTwo ∧ sampleTwo.cache.InRange 0 ∧
    sampleTwo.cache.InRange 1 ∧
    (lineAt (sampleTwo.cache.row 0) 0).valid ≠ 0 ∧
    ((lineAt (sampleTwo.cache.row 1) 0).tag = -1 ∧
      (lineAt (sampleTwo.cache.row 1) 0).time_stamp = 0) ∧
    ∃ st', update_info sampleTwo 9 0 = some st' ∧ (lineAt (st'.cache.row 0) 1).valid ≠ 0 := by
  obtain ⟨h1, _, h3⟩ := fill_order 1 2 1 sampleTwo (by decide) sampleTwo_reachable 0 (by decide)
  obtain ⟨_, h2, _⟩ := fill_order 1 2 1 sampleTwo (by decide) sampleTwo_reachable 1 (by decide)
  exact ⟨by decide, sampleTwo_reachable, by decide, by decide,
    h1 1 0 (by decide) (by decide), h2 0 (by decide) (by decide),
    step sampleTwo 9 0, by decide,
    h3 9 0 (step sampleTwo 9 0) (by decide) (by decide) 1 (by decide)⟩

end Csim
